import Mathlib

/-!
Verification development for the bun SSR bundling/static-serving repository.

The definitions below are shallow embeddings of the TypeScript sources:
* `src/bun-static.ts` (the `bunStatic` static asset server),
* `src/bun-ssr/compress-files-in-dir.ts` (the compression pipeline),
* `src/bun-ssr/bundling.tsx` (`ssrBundle`, `resolveJsDependencies`,
  `generateSsrBundleHandlers` and the manifest schema),
* `scripts/build/fix-js-duplicate-exports.ts` (the export deduplicator).

Bytes are modelled as `List Nat`, JavaScript strings as Lean `String`
(compared and searched through their character lists), JavaScript `Map`s
as association lists, thrown exceptions as `Except String`, and external
capabilities (compression routines, the `es-module-lexer` parse output,
MIME types) as explicit parameters.
-/

namespace Spec2Proof

/-! ## Basic string machinery (models of JS `String.prototype` methods) -/

/-- `startsWithChars needle hay` is true when `needle` is an initial
segment of `hay` (character lists). -/
def startsWithChars : List Char → List Char → Bool
  | [], _ => true
  | _ :: _, [] => false
  | a :: as, b :: bs => a == b && startsWithChars as bs

/-- `containsChars needle hay`: `needle` occurs contiguously inside `hay`.
Models JS `hay.includes(needle)`. -/
def containsChars (needle : List Char) : List Char → Bool
  | [] => startsWithChars needle []
  | c :: rest => startsWithChars needle (c :: rest) || containsChars needle rest

/-- Model of JS `hay.includes(needle)`. -/
def strContains (hay needle : String) : Bool :=
  containsChars needle.toList hay.toList

/-- Model of JS `s.endsWith(suf)`. -/
def strEndsWith (s suf : String) : Bool :=
  startsWithChars suf.toList.reverse s.toList.reverse

/-- ASCII lower-casing of a character (used to model the case-insensitive
keys of the WHATWG `Headers` class; all keys the server sets are ASCII). -/
def lowerChar (c : Char) : Char :=
  if 'A' ≤ c && c ≤ 'Z' then Char.ofNat (c.toNat + 32) else c

/-- Lower-case a header name. -/
def lowerStr (s : String) : String :=
  ⟨s.toList.map lowerChar⟩

/-! ## Model of the WHATWG `Headers` object

Only the observable `get` view matters to the claims.  `new Headers(init)`
normalises every key to lower case; `headers.set(k, v)` replaces any
existing value for the (case-insensitive) key. -/

/-- A header list with lower-cased keys, as produced by `new Headers(u)`. -/
def mkHeaders (u : List (String × String)) : List (String × String) :=
  u.map (fun kv => (lowerStr kv.1, kv.2))

/-- Model of `headers.set(k, v)`: drops previous entries for the key and
appends the new pair (keys are stored lower-cased). -/
def hset (hs : List (String × String)) (k v : String) : List (String × String) :=
  hs.filter (fun kv => kv.1 ≠ lowerStr k) ++ [(lowerStr k, v)]

/-- Model of `headers.get(k)` (for the lower-cased keys used here). -/
def hget (hs : List (String × String)) (k : String) : Option String :=
  (hs.find? (fun kv => kv.1 == lowerStr k)).map (fun kv => kv.2)

/-! ## `bunStatic` — route computation (src/bun-static.ts lines 212-269) -/

/-- Model of the single-pass global replace
`route.replace(/\/\//g, '/')`: scans left to right, replacing each
non-overlapping `//` with `/` and continuing after the replacement. -/
def collapseSlashesChars : List Char → List Char
  | [] => []
  | '/' :: '/' :: rest => '/' :: collapseSlashesChars rest
  | c :: rest => c :: collapseSlashesChars rest

/-- `(routePath + '/' + file.name).replace(/\/\//g, '/')`. -/
def collapseSlashes (s : String) : String :=
  ⟨collapseSlashesChars s.toList⟩

/-- The compression extensions recognised by `bunStatic`
(`['gz', 'br', 'zst']`, searched in that order with `find`). -/
def compressionExtensions : List String := ["gz", "br", "zst"]

/-- Logical name of a file: `bunStatic` groups files by their name with a
single trailing `.gz` / `.br` / `.zst` extension stripped (lines 224-234). -/
def logicalName (name : String) : String :=
  match compressionExtensions.find? (fun ext => strEndsWith name ("." ++ ext)) with
  | some ext => ⟨name.toList.take (name.toList.length - (ext.toList.length + 1))⟩
  | none => name

/-- Route computed for an asset group (lines 262-269): the collapsed
concatenation `routePath + '/' + name`, special-cased to `/*` (spaMode) or
`/` only when that collapsed string equals `/index.html`. -/
def fileRoute (routePath : String) (name : String) (spaMode : Bool) : String :=
  let route := collapseSlashes (routePath ++ "/" ++ name)
  if route = "/index.html" then
    if spaMode then "/*" else "/"
  else route

/-! ## `bunStatic` — variant-negotiating handlers (lines 271-446)

An asset group carries the uncompressed bytes plus the optional bytes of
each compressed sibling found on disk.  `Bun.file(p).size` equals the byte
length of the file, so sizes are `List.length` of the modelled bytes.  The
MIME type (`bunFile.type`) is an external lookup and is a parameter. -/

structure AssetGroup where
  orig : List Nat
  brBytes : Option (List Nat)
  zstBytes : Option (List Nat)
  gzBytes : Option (List Nat)
  deriving Repr, DecidableEq

/-- `file.files.some((file) => file.compression)` — the group has at least
one compressed sibling. -/
def hasCompressedVariants (g : AssetGroup) : Bool :=
  g.brBytes.isSome || g.zstBytes.isSome || g.gzBytes.isSome

structure HttpResponse where
  body : List Nat
  headers : List (String × String)
  deriving Repr, DecidableEq

/-- `acceptEncoding?.includes(tok)`: `undefined?.includes` is falsy when
the request carries no `accept-encoding` header. -/
def aeAccepts (acceptEncoding : Option String) (tok : String) : Bool :=
  match acceptEncoding with
  | none => false
  | some s => strContains s tok

/-- RAM-strategy handler for a group with compressed variants
(lines 338-364).  All variant bytes were pre-loaded; each compressed branch
sets `Content-Encoding`, `Content-Type` and `Content-Length`, while the
final fallback returns `new Response(bunFileBytes, { headers: userHeaders })`
with only the user-supplied headers. -/
def ramHandler (g : AssetGroup) (contentType : String)
    (userHeaders : List (String × String)) (acceptEncoding : Option String) :
    HttpResponse :=
  if g.brBytes.isSome && aeAccepts acceptEncoding ("br") then
    let bytes := g.brBytes.getD []
    { body := bytes
      headers := hset (hset (hset (mkHeaders userHeaders)
        ("Content-Encoding") ("br"))
        ("Content-Type") contentType)
        ("Content-Length") (toString bytes.length) }
  else if g.zstBytes.isSome && aeAccepts acceptEncoding ("zstd") then
    let bytes := g.zstBytes.getD []
    { body := bytes
      headers := hset (hset (hset (mkHeaders userHeaders)
        ("Content-Encoding") ("zstd"))
        ("Content-Type") contentType)
        ("Content-Length") (toString bytes.length) }
  else if g.gzBytes.isSome && aeAccepts acceptEncoding ("gzip") then
    let bytes := g.gzBytes.getD []
    { body := bytes
      headers := hset (hset (hset (mkHeaders userHeaders)
        ("Content-Encoding") ("gzip"))
        ("Content-Type") contentType)
        ("Content-Length") (toString bytes.length) }
  else
    { body := g.orig, headers := mkHeaders userHeaders }

/-- Disk-strategy handler for a group with compressed variants
(lines 382-418).  Bodies are streamed from the files (identical bytes);
every branch, including the uncompressed fallback, sets `Content-Type`
and `Content-Length` (fallback) or all three content headers. -/
def diskHandler (g : AssetGroup) (contentType : String)
    (userHeaders : List (String × String)) (acceptEncoding : Option String) :
    HttpResponse :=
  if g.brBytes.isSome && aeAccepts acceptEncoding ("br") then
    let bytes := g.brBytes.getD []
    { body := bytes
      headers := hset (hset (hset (mkHeaders userHeaders)
        ("Content-Type") contentType)
        ("Content-Encoding") ("br"))
        ("Content-Length") (toString bytes.length) }
  else if g.zstBytes.isSome && aeAccepts acceptEncoding ("zstd") then
    let bytes := g.zstBytes.getD []
    { body := bytes
      headers := hset (hset (hset (mkHeaders userHeaders)
        ("Content-Type") contentType)
        ("Content-Encoding") ("zstd"))
        ("Content-Length") (toString bytes.length) }
  else if g.gzBytes.isSome && aeAccepts acceptEncoding ("gzip") then
    let bytes := g.gzBytes.getD []
    { body := bytes
      headers := hset (hset (hset (mkHeaders userHeaders)
        ("Content-Type") contentType)
        ("Content-Encoding") ("gzip"))
        ("Content-Length") (toString bytes.length) }
  else
    { body := g.orig
      headers := hset (hset (mkHeaders userHeaders)
        ("Content-Type") contentType)
        ("Content-Length") (toString g.orig.length) }

/-- Modelled from the spec: the variant the spec says the handler must
return — the first of brotli > zstd > gzip that exists and that the
client's `Accept-Encoding` accepts, else the uncompressed original.
Returns the chosen encoding token (`none` = uncompressed) and its bytes.
Used only to compare the source-derived handlers against the spec. -/
def specVariantChoice (g : AssetGroup) (acceptEncoding : Option String) :
    Option String × List Nat :=
  if g.brBytes.isSome && aeAccepts acceptEncoding ("br") then
    (some ("br"), g.brBytes.getD [])
  else if g.zstBytes.isSome && aeAccepts acceptEncoding ("zstd") then
    (some ("zstd"), g.zstBytes.getD [])
  else if g.gzBytes.isSome && aeAccepts acceptEncoding ("gzip") then
    (some ("gzip"), g.gzBytes.getD [])
  else (none, g.orig)

/-! ## `compressFilesInDir` (src/bun-ssr/compress-files-in-dir.ts)

The file system is modelled as an association list from path to bytes;
`readdirSync(distDir, { recursive: true })` is its list of paths,
`Bun.file(p).size` the byte length, `writeFileSync` an upsert.  The three
compression routines run in worker processes and are external: they are
parameters, as pure byte-transformers. -/

structure Compressors where
  gz : List Nat → List Nat
  zst : List Nat → List Nat
  br : List Nat → List Nat

/-- The extension allow-list `/\.(js|css|html|json|svg|ico)$/.test(file)`
(line 53): the path must end in a dot followed by one of the six
extensions. -/
def eligibleFile (name : String) : Bool :=
  strEndsWith name (".js") || strEndsWith name (".css") ||
  strEndsWith name (".html") || strEndsWith name (".json") ||
  strEndsWith name (".svg") || strEndsWith name (".ico")

/-- The sibling files written for one eligible file (lines 54-123): for
each algorithm the `.gz`/`.zst`/`.br` sibling is written exactly when the
compressed byte length is strictly below the original size; otherwise the
attempt is logged as skipped and nothing is written. -/
def writesForFile (c : Compressors) (name : String) (b : List Nat) :
    List (String × List Nat) :=
  (if (c.gz b).length < b.length then [(name ++ ".gz", c.gz b)] else []) ++
  (if (c.zst b).length < b.length then [(name ++ ".zst", c.zst b)] else []) ++
  (if (c.br b).length < b.length then [(name ++ ".br", c.br b)] else [])

/-- All writes performed by one `compressFilesInDir` pass over the listed
files (lines 45-127); non-eligible files are skipped entirely.  The pass
runs files concurrently, but every write targets a distinct sibling path,
so the write set is order-independent. -/
def compressWrites (c : Compressors) (fs : List (String × List Nat)) :
    List (String × List Nat) :=
  fs.foldr
    (fun e acc => if eligibleFile e.1 then writesForFile c e.1 e.2 ++ acc else acc)
    []

/-- `writeFileSync`: replace the value at an existing path, else append. -/
def fsUpsert (fs : List (String × List Nat)) (w : String × List Nat) :
    List (String × List Nat) :=
  if fs.any (fun e => e.1 == w.1) then
    fs.map (fun e => if e.1 == w.1 then w else e)
  else fs ++ [w]

def applyWrites (fs : List (String × List Nat))
    (ws : List (String × List Nat)) : List (String × List Nat) :=
  ws.foldl fsUpsert fs

/-- Directory state after one `compressFilesInDir` pass. -/
def compressFilesInDir (c : Compressors) (fs : List (String × List Nat)) :
    List (String × List Nat) :=
  applyWrites fs (compressWrites c fs)

/-! ## `resolveJsDependencies` (src/bun-ssr/bundling.tsx lines 526-636)

The emitted `.js` files are given as records carrying the data of the two
maps the function builds (`jsFilesByBasename` and `fileContentByBasename`):
basename, full path, and text content.  `path.join(publicAssetPath,
otherBasename)` is modelled for its actual argument shapes (a clean prefix
and a bare file name without `/`, `.` or `..` segments). -/

structure JsFile where
  basename : String
  fullPath : String
  content : String
  deriving Repr, DecidableEq

/-- Model of Node `path.join(a, b)` for a clean directory-like `a` and a
bare file name `b` (no `.`/`..`/duplicate-slash normalisation needed):
a single separator is placed between the parts. -/
def pathJoin (a b : String) : String :=
  if a = "" then b
  else if strEndsWith a ("/") then a ++ b
  else a ++ "/" ++ b

/-- A single-quote character, used to build the `import('…')` pattern. -/
def squoteChar : Char := Char.ofNat 39

def squote : String := String.singleton squoteChar

def dquote : String := String.singleton (Char.ofNat 34)

/-- `content.includes(searchPattern)` for the dynamic-import wrappings
`import('p')` / `import("p")` (lines 576-578). -/
def dynamicallyImports (content p : String) : Bool :=
  strContains content ("import(" ++ squote ++ p ++ squote ++ ")") ||
  strContains content ("import(" ++ dquote ++ p ++ dquote ++ ")")

/-- One reference-map test (lines 571-583): a distinct file `ob` is
statically referenced by `content` when the joined pattern occurs in the
text and is not dynamically imported. -/
def staticallyRefs (publicAssetPath content ob : String) : Bool :=
  let searchPattern := pathJoin publicAssetPath ob
  strContains content searchPattern && !(dynamicallyImports content searchPattern)

/-- The reference set recorded for the file with basename `bn` and text
`content`: all other basenames it statically references, in file order. -/
def refsOf (publicAssetPath : String) (files : List JsFile)
    (bn content : String) : List String :=
  ((files.filter (fun g => g.basename ≠ bn &&
      staticallyRefs publicAssetPath content g.basename)).map
    (fun g => g.basename))

/-- Step 2 of the resolver: the full reference map, one entry per file. -/
def referenceMap (publicAssetPath : String) (files : List JsFile) :
    List (String × List String) :=
  files.map (fun f => (f.basename, refsOf publicAssetPath files f.basename f.content))

/-- The `collectDeps` depth-first closure (lines 593-605); the JS function
terminates because `allDeps` grows on every recursive call, which the
embedding makes explicit with a fuel argument (one unit per newly added
basename plus one). -/
def collectDeps (refMap : List (String × List String)) :
    Nat → List String → String → List String
  | 0, allDeps, _ => allDeps
  | fuel + 1, allDeps, bn =>
    match refMap.lookup bn with
    | none => allDeps
    | some refs =>
      refs.foldl
        (fun acc ref =>
          if acc.contains ref then acc
          else collectDeps refMap fuel (acc ++ [ref]) ref)
        allDeps

structure JsAsset where
  urlPath : String
  filePath : String
  kind : String
  deriving Repr, DecidableEq

/-- Dependency appending (lines 617-632): each collected basename whose
file exists is appended as a `chunk` asset unless an asset with the same
`urlPath` (built by string concatenation `publicAssetPath + depBasename`)
is already present. -/
def appendDeps (publicAssetPath : String) (files : List JsFile)
    (jsFiles : List JsAsset) (deps : List String) : List JsAsset :=
  deps.foldl
    (fun js d =>
      let depUrlPath := publicAssetPath ++ d
      match (files.find? (fun f => f.basename == d)).map (fun f => f.fullPath) with
      | none => js
      | some fp =>
        if js.any (fun f => f.urlPath == depUrlPath) then js
        else js ++ [{ urlPath := depUrlPath, filePath := fp, kind := "chunk" }])
    jsFiles

/-- Node `path.basename`: the part after the final `/`. -/
def pathBasename (s : String) : String :=
  ⟨((s.toList.reverse.takeWhile (fun c => c ≠ '/')).reverse)⟩

/-- Per-page resolution (lines 589-633): start from the page's
`entrypoint` asset (first with kind `entrypoint`; pages without one are
skipped), collect the transitive closure, and append the dependencies. -/
def resolvePage (publicAssetPath : String) (files : List JsFile)
    (jsFiles : List JsAsset) : List JsAsset :=
  match jsFiles.find? (fun f => f.kind == "entrypoint") with
  | none => jsFiles
  | some entrypoint =>
    let allDeps := collectDeps (referenceMap publicAssetPath files)
      (files.length + 1) [] (pathBasename entrypoint.urlPath)
    appendDeps publicAssetPath files jsFiles allDeps

/-- `resolveJsDependencies`: resolves every page of `jsByPagePath` against
the same reference map and returns the updated mapping. -/
def resolveJsDependencies (publicAssetPath : String) (files : List JsFile)
    (jsByPagePath : List (String × List JsAsset)) :
    List (String × List JsAsset) :=
  jsByPagePath.map (fun e => (e.1, resolvePage publicAssetPath files e.2))

/-! ## `ssrBundle` — output processing and manifest serialization
(src/bun-ssr/bundling.tsx lines 142-387)

`Bun.build` is external: its result is the parameter `outputs`.  Thrown
errors become `Except.error`. -/

structure RouteConfig where
  path : String
  hydrateModulePath : String
  deriving Repr, DecidableEq

structure BuildOutput where
  path : String
  kind : String
  hash : String
  deriving Repr, DecidableEq

/-- Node `path.parse(base).name`: the base name with its final extension
removed; a leading dot alone (dotfiles) does not count as an extension. -/
def parseNameOf (base : String) : String :=
  let cs := base.toList
  let revExt := cs.reverse.takeWhile (fun c => c ≠ '.')
  if revExt.length + 1 ≤ cs.length ∧ revExt.length + 1 ≠ cs.length then
    ⟨cs.take (cs.length - (revExt.length + 1))⟩
  else base

/-- JS `s.replace(pat, '')` with a string pattern: removes the first
occurrence of `pat`, if any. -/
def removeFirstChars (pat : List Char) : List Char → List Char
  | [] => []
  | c :: rest =>
    if startsWithChars pat (c :: rest) then (c :: rest).drop pat.length
    else c :: removeFirstChars pat rest

def removeFirst (s pat : String) : String :=
  ⟨removeFirstChars pat.toList s.toList⟩

/-- The hash-stripping route match used for both entry points and CSS
outputs (lines 193-199 and 226-232): strip `-hash` from the parsed name
and find the route whose hydrate-module base name equals it. -/
def routeForOutput (routes : List RouteConfig) (o : BuildOutput) :
    Option RouteConfig :=
  let expectedName := parseNameOf (pathBasename o.path)
  let basenameWithoutHash := removeFirst expectedName ("-" ++ o.hash)
  routes.find? (fun page =>
    parseNameOf (pathBasename page.hydrateModulePath) == basenameWithoutHash)

structure CssAsset where
  urlPath : String
  filePath : String
  deriving Repr, DecidableEq

/-- JS `Map.set`. -/
def mapSet {α : Type} (m : List (String × α)) (k : String) (v : α) :
    List (String × α) :=
  if m.any (fun e => e.1 == k) then
    m.map (fun e => if e.1 == k then (k, v) else e)
  else m ++ [(k, v)]

/-- Entry-point handling for one bundler output (lines 192-210): an
entry point is matched to its route (throwing when none matches) and sets
a fresh singleton JS list under the route's path. -/
def processEntryStep (publicAssetPath : String) (routes : List RouteConfig)
    (o : BuildOutput) (jsMap : List (String × List JsAsset)) :
    Except String (List (String × List JsAsset)) :=
  if o.kind == "entry-point" then
    match routeForOutput routes o with
    | none =>
      .error ("Page for basename " ++
        removeFirst (parseNameOf (pathBasename o.path)) ("-" ++ o.hash) ++
        " not found")
    | some page =>
      .ok (mapSet jsMap page.path
        [{ urlPath := publicAssetPath ++ pathBasename o.path
           filePath := o.path
           kind := "entrypoint" }])
  else .ok jsMap

/-- CSS handling for one bundler output (lines 213-243): a `.css` output
is copied to a hash-only name and appended to the matched route's CSS
list when a route matches, silently skipped otherwise. -/
def processCssStep (publicAssetPath : String) (routes : List RouteConfig)
    (o : BuildOutput) (cssMap : List (String × List CssAsset)) :
    List (String × List CssAsset) :=
  if strEndsWith o.path (".css") then
    match routeForOutput routes o with
    | none => cssMap
    | some page =>
      mapSet cssMap page.path
        (((cssMap.lookup page.path).getD []) ++
          [{ urlPath := publicAssetPath ++ o.hash ++ ".css"
             filePath := o.path }])
  else cssMap

/-- Output-processing loop of `bundleClient` (lines 188-249). -/
def processOutputs (publicAssetPath : String) (routes : List RouteConfig) :
    List BuildOutput →
    List (String × List JsAsset) → List (String × List CssAsset) →
    Except String (List (String × List JsAsset) × List (String × List CssAsset))
  | [], jsMap, cssMap => .ok (jsMap, cssMap)
  | o :: rest, jsMap, cssMap =>
    match processEntryStep publicAssetPath routes o jsMap with
    | .error e => .error e
    | .ok jsMap' =>
      processOutputs publicAssetPath routes rest jsMap'
        (processCssStep publicAssetPath routes o cssMap)

/-- Common-styles fallback (lines 258-281): when the build emitted exactly
one CSS file, every route whose CSS list is absent or empty gets that file
(under its hash-only URL). -/
def cssFallback (publicAssetPath : String) (routes : List RouteConfig)
    (outputs : List BuildOutput) (cssMap : List (String × List CssAsset)) :
    List (String × List CssAsset) :=
  match outputs.filter (fun o => strEndsWith o.path (".css")) with
  | [cssFile] =>
    routes.foldl
      (fun m page =>
        match m.lookup page.path with
        | some (_ :: _) => m
        | _ =>
          mapSet m page.path
            [{ urlPath := publicAssetPath ++ cssFile.hash ++ ".css"
               filePath := cssFile.path }])
      cssMap
  | _ => cssMap

structure ManifestRoute where
  path : String
  js : List String
  css : List String
  deriving Repr, DecidableEq

/-- Manifest serialization (lines 351-381): one entry per route in input
order; a route missing from either internal map throws. -/
def mkManifestRoutes (jsMap : List (String × List JsAsset))
    (cssMap : List (String × List CssAsset)) :
    List RouteConfig → Except String (List ManifestRoute)
  | [] => .ok []
  | page :: rest =>
    match jsMap.lookup page.path with
    | none => .error ("Entrypoint path for path " ++ page.path ++ " not found")
    | some pageJsPaths =>
      match cssMap.lookup page.path with
      | none => .error ("CSS paths for path " ++ page.path ++ " not found")
      | some pageCssPaths =>
        (mkManifestRoutes jsMap cssMap rest).map
          (fun ms =>
            { path := page.path
              js := pageJsPaths.map (fun p => p.urlPath)
              css := pageCssPaths.map (fun p => p.urlPath) } :: ms)

/-- The post-build pipeline of `ssrBundle` for a non-empty route set:
process the bundler outputs into the per-page maps, resolve JS
dependencies against the emitted files, apply the CSS fallback, and
serialize the manifest routes.  (Compression affects no manifest data.) -/
def bundleManifest (publicAssetPath : String) (routes : List RouteConfig)
    (outputs : List BuildOutput) (files : List JsFile) :
    Except String (List ManifestRoute) :=
  match processOutputs publicAssetPath routes outputs [] [] with
  | .error e => .error e
  | .ok (jsMap, cssMap) =>
    let jsMap' := resolveJsDependencies publicAssetPath files jsMap
    let cssMap' := cssFallback publicAssetPath routes outputs cssMap
    mkManifestRoutes jsMap' cssMap' routes

/-! ## `generateSsrBundleHandlers` — manifest loading and validation
(src/bun-ssr/bundling.tsx lines 389-519, schema lines 43-59)

JSON values are modelled by an inductive type (numbers as integers — the
only number in the manifest is the integral `version`), the manifest file
by an `Option Json` (`none` = `manifestFile.exists()` is false), and the
`zod` schema `ssrBundleManifestSchema` by a checked parser.  Building one
route's render handler involves external React rendering, so the
per-route handler constructor is a parameter; the validation claims hold
for every such constructor. -/

inductive Json where
  | null
  | bool (b : Bool)
  | num (n : Int)
  | str (s : String)
  | arr (elems : List Json)
  | obj (fields : List (String × Json))

/-- Property lookup on a JSON object (non-objects have no properties). -/
def Json.getField : Json → String → Option Json
  | .obj fields, k => fields.lookup k
  | _, _ => none

/-- `z.string()`. -/
def parseString : Json → Except String String
  | .str s => .ok s
  | _ => .error ("Expected string")

/-- `z.array(z.string())`. -/
def parseStringArray : Json → Except String (List String)
  | .arr elems => elems.mapM parseString
  | _ => .error ("Expected array")

/-- `ssrBundleManifestRouteSchema` (lines 46-53). -/
def parseManifestRoute (j : Json) : Except String ManifestRoute := do
  let path ← match j.getField ("path") with
    | some v => parseString v
    | none => .error ("Missing path")
  let assets ← match j.getField ("assets") with
    | some v => .ok v
    | none => .error ("Missing assets")
  let js ← match assets.getField ("js") with
    | some v => parseStringArray v
    | none => .error ("Missing assets.js")
  let css ← match assets.getField ("css") with
    | some v => parseStringArray v
    | none => .error ("Missing assets.css")
  .ok { path := path, js := js, css := css }

def SSR_MANIFEST_VERSION : Int := 1

structure Manifest where
  publicAssetPath : String
  routes : List ManifestRoute
  deriving Repr, DecidableEq

/-- `ssrBundleManifestSchema.parse` (lines 55-59): `version` must be the
literal constant, `publicAssetPath` a string, `routes` an array matching
the route schema. -/
def parseManifest (j : Json) : Except String Manifest := do
  let _ ← match j.getField ("version") with
    | some (.num n) =>
      if n = SSR_MANIFEST_VERSION then .ok ()
      else .error ("Invalid manifest version")
    | _ => .error ("Invalid manifest version")
  let publicAssetPath ← match j.getField ("publicAssetPath") with
    | some v => parseString v
    | none => .error ("Missing publicAssetPath")
  let routes ← match j.getField ("routes") with
    | some (.arr elems) => elems.mapM parseManifestRoute
    | _ => .error ("Missing routes")
  .ok { publicAssetPath := publicAssetPath, routes := routes }

/-- `generateSsrBundleHandlers` (lines 404-519), up to the construction of
the per-route handlers.  `routePaths` are the paths of the caller-supplied
route configs; an empty list returns an empty handler set at once
(lines 405-410); a missing manifest file throws (lines 416-421); the
parsed JSON is validated by the schema (line 424); each manifest route
must match a caller route (lines 436-444) and its handler is produced by
`buildRoute` (external rendering closure). -/
def generateSsrBundleHandlers {α : Type}
    (routePaths : List String) (manifestFile : Option Json)
    (buildRoute : ManifestRoute → Except String α) :
    Except String (Option (List (String × α))) :=
  if routePaths.isEmpty then .ok none
  else
    match manifestFile with
    | none => .error ("SSR manifest file not found. Did you run the bundle step?")
    | some j => do
      let manifest ← parseManifest j
      let handlers ← manifest.routes.mapM (fun route =>
        if routePaths.contains route.path then
          (buildRoute route).map (fun h => (route.path, h))
        else
          .error ("SSR export in module for path " ++ route.path ++ " was not found"))
      .ok (some handlers)

/-! ## Export deduplicator (scripts/build/fix-js-duplicate-exports.ts)

`fixDuplicateExportsInFile` (lines 273-497) is embedded over the file's
character list.  The `es-module-lexer` `parse` call is an external
library: its named-export output (name and `s` start offset per export)
is a parameter.  Character positions are `Nat` indices into the list. -/

def lbraceChar : Char := Char.ofNat 123

def rbraceChar : Char := Char.ofNat 125

/-- JS `/\s/` on the ASCII whitespace the sources contain. -/
def isWsChar (c : Char) : Bool :=
  c = ' ' || c = '\t' || c = '\n' || c = '\r' ||
  c = Char.ofNat 11 || c = Char.ofNat 12

/-- `code.slice(i, j)` on a character list. -/
def sliceChars (code : List Char) (i j : Nat) : List Char :=
  (code.drop i).take (j - i)

/-- First index `k` with `i ≤ k < stop` and `code[k] = '{'` (the forward
brace scan of lines 307-312). -/
def findOpenBrace (code : List Char) (i stop : Nat) : Option Nat :=
  (List.range' i (stop - i)).find? (fun k => code.getD k ' ' == lbraceChar)

/-- The backward `while (searchStart > 0)` scan of lines 299-315: starting
just below the export name, find an `export` keyword preceded by start of
file or whitespace that has an opening brace before the name.  The fuel is
the current `searchStart` (the loop decrements it each iteration). -/
def searchExport (code : List Char) (nameStart : Nat) : Nat → Option (Nat × Nat)
  | 0 => none
  | s + 1 =>
    if sliceChars code s (s + 6) = ("export").toList ∧
        (s = 0 ∨ isWsChar (code.getD (s - 1) ' ')) then
      match findOpenBrace code (s + 6) nameStart with
      | some ob => some (s, ob)
      | none => searchExport code nameStart s
    else searchExport code nameStart s

/-- The forward brace-depth scan of lines 320-331, over the suffix of the
code starting at the opening brace. -/
def findCloseAux : List Char → Nat → Int → Option Nat
  | [], _, _ => none
  | c :: cs, i, depth =>
    if c = lbraceChar then findCloseAux cs (i + 1) (depth + 1)
    else if c = rbraceChar then
      if depth - 1 = 0 then some i else findCloseAux cs (i + 1) (depth - 1)
    else findCloseAux cs (i + 1) depth

def findCloseBrace (code : List Char) (openBracePos : Nat) : Option Nat :=
  findCloseAux (code.drop openBracePos) openBracePos 0

/-- One re-export statement: byte range plus the names it exports.
(`stop` is the source's `end`, a Lean keyword.) -/
structure ExportStatement where
  start : Nat
  stop : Nat
  names : List String
  deriving Repr, DecidableEq

/-- Lines 337-354: merge a name into the statement with the same
boundaries (first match, mutated in place) or append a new statement. -/
def addStmt : List ExportStatement → Nat → Nat → String → List ExportStatement
  | [], st, en, n => [{ start := st, stop := en, names := [n] }]
  | s :: ss, st, en, n =>
    if s.start = st ∧ s.stop = en then
      (if s.names.contains n then s else { s with names := s.names ++ [n] }) :: ss
    else s :: addStmt ss st en n

/-- Lines 288-355: build the export statements from the lexer's named
exports (`(name, s)` pairs; unnamed/empty names are skipped by
`if (!exp.n) continue`). -/
def buildStatements (code : List Char) :
    List (String × Nat) → List ExportStatement → List ExportStatement
  | [], stmts => stmts
  | (n, s) :: rest, stmts =>
    if n = "" then buildStatements code rest stmts
    else
      match searchExport code s s with
      | none => buildStatements code rest stmts
      | some (ekp, ob) =>
        match findCloseBrace code ob with
        | none => buildStatements code rest stmts
        | some cb => buildStatements code rest (addStmt stmts ekp (cb + 1) n)

/-- Stable insertion by `start` (the `sort((a, b) => a.start - b.start)` of
line 358). -/
def insertStmt (s : ExportStatement) : List ExportStatement → List ExportStatement
  | [] => [s]
  | t :: ts => if t.start < s.start then t :: insertStmt s ts else s :: t :: ts

def sortStmts : List ExportStatement → List ExportStatement
  | [] => []
  | s :: ss => insertStmt s (sortStmts ss)

/-- The trailing-semicolon/whitespace/newline extension of a whole-statement
removal (lines 372-395), over the suffix of the code starting at the
statement's `stop`; consumes at most one newline and stops there. -/
def extendRemoval : List Char → Nat → Nat
  | [], pos => pos
  | c :: cs, pos =>
    if c = ';' then extendRemoval cs (pos + 1)
    else if c = '\n' then pos + 1
    else if c = '\r' then
      match cs with
      | '\n' :: _ => pos + 2
      | _ => pos + 1
    else if c = ' ' ∨ c = '\t' then extendRemoval cs (pos + 1)
    else pos

/-- The duplicate-detection walk of lines 361-408: statements in source
order, a `seen` set of names; a statement whose names are all seen is
queued for whole removal (with the extended end), a mixed statement is
queued for a name-level rewrite and its new names marked seen, and a clean
statement marks all its names seen. -/
def dedupScan (code : List Char) :
    List ExportStatement → List String → List (Nat × Nat) →
    List (ExportStatement × List String) →
    List (Nat × Nat) × List (ExportStatement × List String)
  | [], _, rem, nrm => (rem, nrm)
  | stmt :: rest, seen, rem, nrm =>
    if (stmt.names.filter (fun n => seen.contains n)).length > 0 then
      if (stmt.names.filter (fun n => !seen.contains n)).length = 0 then
        dedupScan code rest seen
          (rem ++ [(stmt.start, extendRemoval (code.drop stmt.stop) stmt.stop)]) nrm
      else
        dedupScan code rest
          (seen ++ stmt.names.filter (fun n => !seen.contains n)) rem
          (nrm ++ [(stmt, stmt.names.filter (fun n => seen.contains n))])
    else
      dedupScan code rest (seen ++ stmt.names) rem nrm

def indexOfChar (cs : List Char) (c : Char) : Option Nat :=
  (List.range' 0 cs.length).find? (fun k => cs.getD k ' ' == c)

def lastIndexOfChar (cs : List Char) (c : Char) : Option Nat :=
  match indexOfChar cs.reverse c with
  | none => none
  | some k => some (cs.length - 1 - k)

/-- JS `content.split(',')`. -/
def splitOnComma : List Char → List (List Char)
  | [] => [[]]
  | c :: rest =>
    let r := splitOnComma rest
    if c = ',' then [] :: r
    else
      match r with
      | seg :: segs => (c :: seg) :: segs
      | [] => [[c]]

/-- JS `segment.trim()` (whitespace from both ends). -/
def trimChars (cs : List Char) : List Char :=
  ((cs.dropWhile isWsChar).reverse.dropWhile isWsChar).reverse

/-- The name-level rewrite of one mixed statement (lines 423-472): the
names between the braces are split on commas and trimmed (the source also
records their positions, which it never uses), the duplicate ones dropped,
and — when any name survives — the whole statement replaced by
`export { kept, names }`.  A statement whose names would all be dropped
produces no edit. -/
def editForStmt (code : List Char) (stmt : ExportStatement)
    (namesToRemove : List String) : Option (Nat × Nat × List Char) :=
  let stmtText := sliceChars code stmt.start stmt.stop
  match indexOfChar stmtText lbraceChar, lastIndexOfChar stmtText rbraceChar with
  | some ob, some cb =>
    let contentStart := stmt.start + ob + 1
    let contentEnd := stmt.start + cb
    let content := sliceChars code contentStart contentEnd
    let parts := (splitOnComma content).map trimChars
    let parts := parts.filter (fun t => t ≠ [])
    let namesToKeep := parts.filter (fun p => !(namesToRemove.contains (String.mk p)))
    if namesToKeep.length > 0 then
      let joined := String.intercalate (", ") (namesToKeep.map String.mk)
      some (stmt.start, stmt.stop, ("export \x7b " ++ joined ++ " \x7d").toList)
    else none
  | _, _ => none

/-- `result.slice(0, start) + replacement + result.slice(end)`. -/
def applyEdit (code : List Char) (e : Nat × Nat × List Char) : List Char :=
  code.take e.1 ++ e.2.2 ++ code.drop e.2.1

/-- Lines 410-496: if the plan holds nothing to fix, report "not fixed";
otherwise apply the name-level rewrites and then the whole-statement
removals, each in reverse source order, yielding the new text. -/
def applyFixPlan (code : List Char)
    (plan : List (Nat × Nat) × List (ExportStatement × List String)) :
    Option (List Char) :=
  if plan.1.length = 0 ∧ plan.2.length = 0 then none
  else
    some (plan.1.reverse.foldl (fun c pr => c.take pr.1 ++ c.drop pr.2)
      (((plan.2.filterMap (fun pr => editForStmt code pr.1 pr.2)).reverse).foldl
        applyEdit code))

/-- `fixDuplicateExportsInFile` (lines 273-497): builds the statements
from the lexer output, sorts them by position, plans the fixes with the
`seen`-set walk, and applies the plan.  `none` means the file is untouched
and reported as not fixed. -/
def fixDuplicateExportsInFile (lexExports : List (String × Nat))
    (code : List Char) : Option (List Char) :=
  applyFixPlan code
    (dedupScan code (sortStmts (buildStatements code lexExports [])) [] [] [])

structure FixResult where
  filePath : String
  wasFixed : Bool
  error : Option String
  deriving Repr, DecidableEq

/-- `fixDuplicateExportsInDirectory` (lines 226-271): every file is
processed; a file whose fix throws contributes a result entry carrying the
error, and the batch always completes.  The per-file fix is a parameter
(`Except` models the thrown error). -/
def fixDuplicateExportsInDirectory (fix : String → Except String Bool)
    (jsFiles : List String) : List FixResult :=
  jsFiles.map (fun filePath =>
    match fix filePath with
    | .ok wasFixed => { filePath := filePath, wasFixed := wasFixed, error := none }
    | .error e => { filePath := filePath, wasFixed := false, error := some e })

/-- `results.filter((r) => r.wasFixed).length` (line 250). -/
def fixedCount (results : List FixResult) : Nat :=
  (results.filter (fun r => r.wasFixed)).length

/-- `results.filter((r) => r.error).length` (line 251). -/
def errorCount (results : List FixResult) : Nat :=
  (results.filter (fun r => r.error.isSome)).length

/-- Outcome of fixing one file: its (possibly rewritten) content and the
reported fixed flag. -/
def fixOutcome (lexer : List Char → List (String × Nat))
    (f : String × List Char) : String × List Char × Bool :=
  match fixDuplicateExportsInFile (lexer f.2) f.2 with
  | none => (f.1, f.2, false)
  | some code2 => (f.1, code2, true)

/-- A directory run of the fixer with concrete contents: each `.js` file
is fixed with the (external) lexer applied to its text; returns the new
contents and the number of files reported fixed. -/
def runFixer (lexer : List Char → List (String × Nat))
    (files : List (String × List Char)) : List (String × List Char) × Nat :=
  ((files.map (fixOutcome lexer)).map (fun o => (o.1, o.2.1)),
   ((files.map (fixOutcome lexer)).filter (fun o => o.2.2)).length)

/-! ## Generic helper lemmas -/

theorem str_toList_append (x y : String) : (x ++ y).toList = x.toList ++ y.toList := by
  cases x
  cases y
  rfl

theorem str_toList_inj {x y : String} (h : x.toList = y.toList) : x = y := by
  cases x
  cases y
  exact congrArg String.mk h

theorem str_append_left_cancel {x y : String} (s : String) (h : s ++ x = s ++ y) :
    x = y := by
  apply str_toList_inj
  have h2 := congrArg String.toList h
  rw [str_toList_append, str_toList_append] at h2
  exact List.append_cancel_left h2

theorem str_append_right_cancel {x y : String} (s : String) (h : x ++ s = y ++ s) :
    x = y := by
  apply str_toList_inj
  have h2 := congrArg String.toList h
  rw [str_toList_append, str_toList_append] at h2
  exact List.append_cancel_right h2

theorem startsWithChars_self_append (l t : List Char) :
    startsWithChars l (l ++ t) = true := by
  induction l with
  | nil => rfl
  | cons a as ih => simp [startsWithChars, ih]

theorem strEndsWith_append (x s : String) : strEndsWith (x ++ s) s = true := by
  unfold strEndsWith
  rw [str_toList_append, List.reverse_append]
  exact startsWithChars_self_append _ _

/-- A successful `startsWithChars` check pins down the head of the list. -/
theorem startsWithChars_head {a : Char} {as l : List Char}
    (h : startsWithChars (a :: as) l = true) : l.head? = some a := by
  cases l with
  | nil => simp [startsWithChars] at h
  | cons b bs =>
    simp only [startsWithChars, Bool.and_eq_true, beq_iff_eq] at h
    simp [h.1]

/-! ## C5 — index.html route special-case -/

/-- C5 (counterexample): a file whose logical name is `index.html` does
not get the `/*` / `/` special route for every `routePath`: with the
route path `/assets` (and spaMode either way) the computed route is
`/assets/index.html`, because the code special-cases on the full collapsed
route string, not on the logical name. -/
theorem c5_counterexample :
    logicalName ("index.html.gz") = "index.html"
    ∧ fileRoute ("/assets") (logicalName ("index.html.gz")) true = "/assets/index.html"
    ∧ fileRoute ("/assets") (logicalName ("index.html.gz")) false = "/assets/index.html" := by
  refine ⟨by decide, by decide, by decide⟩

/-- C5 (amended): the `index.html` special-case fires exactly when the
collapsed concatenation `routePath + '/' + name` equals `/index.html`
(so with the empty or `/` route path for a top-level `index.html`), and
then yields `/*` under spaMode and `/` otherwise; any other file keeps the
collapsed concatenated route. -/
theorem c5_index_route (spaMode : Bool) (routePath name : String)
    (hroot : routePath = "" ∨ routePath = "/")
    (hname : logicalName name = "index.html") :
    (fileRoute routePath (logicalName name) spaMode
        = if spaMode then "/*" else "/")
    ∧ (∀ rp nm, collapseSlashes (rp ++ "/" ++ nm) ≠ "/index.html" →
        fileRoute rp nm spaMode = collapseSlashes (rp ++ "/" ++ nm)) := by
  constructor
  · rw [hname]
    rcases hroot with h | h <;> subst h <;> cases spaMode <;> decide
  · intro rp nm h
    unfold fileRoute
    simp only [if_neg h]

/-- C5 (witness): instantiating the amended theorem at `routePath = ""`,
`name = "index.html.gz"`, spaMode on. -/
theorem c5_witness :
    ("" = "" ∨ "" = "/")
    ∧ logicalName ("index.html.gz") = "index.html"
    ∧ fileRoute ("") (logicalName ("index.html.gz")) true = "/*" := by
  refine ⟨Or.inl rfl, by decide, ?_⟩
  have h := (c5_index_route true ("") ("index.html.gz") (Or.inl rfl) (by decide)).1
  simpa using h

/-! ## C1 — variant negotiation and Content-Length -/

theorem find?_filter_of_imp {α : Type} (p q : α → Bool) (l : List α)
    (h : ∀ x, p x = true → q x = true) : (l.filter q).find? p = l.find? p := by
  induction l with
  | nil => rfl
  | cons a as ih =>
    by_cases hq : q a = true
    · rw [List.filter_cons_of_pos hq]
      by_cases hp : p a = true
      · rw [List.find?_cons_of_pos _ hp, List.find?_cons_of_pos _ hp]
      · rw [List.find?_cons_of_neg _ (by simpa using hp),
          List.find?_cons_of_neg _ (by simpa using hp)]
        exact ih
    · have hp : ¬p a = true := fun hp => hq (h a hp)
      rw [List.filter_cons_of_neg (by simpa using hq),
        List.find?_cons_of_neg _ (by simpa using hp)]
      exact ih

theorem hget_hset_self (hs : List (String × String)) (k v : String) :
    hget (hset hs k v) k = some v := by
  unfold hget hset
  rw [List.find?_append]
  have hnone :
      (List.filter (fun kv => decide (kv.1 ≠ lowerStr k)) hs).find?
        (fun kv => kv.1 == lowerStr k) = none := by
    rw [List.find?_eq_none]
    intro x hx
    have hx' := (List.mem_filter.mp hx).2
    simp only [decide_eq_true_eq] at hx'
    simpa using hx'
  rw [hnone]
  simp

theorem hget_hset_other (hs : List (String × String)) (k k' v : String)
    (h : lowerStr k' ≠ lowerStr k) : hget (hset hs k v) k' = hget hs k' := by
  unfold hget hset
  rw [List.find?_append]
  have hlast :
      ([(lowerStr k, v)].find? (fun kv => kv.1 == lowerStr k')) = none := by
    simp only [List.find?_singleton, beq_iff_eq]
    rw [if_neg]
    exact fun hh => h hh.symm
  have hfilter :
      (List.filter (fun kv => decide (kv.1 ≠ lowerStr k)) hs).find?
          (fun kv => kv.1 == lowerStr k')
        = hs.find? (fun kv => kv.1 == lowerStr k') := by
    apply find?_filter_of_imp
    intro x hx
    simp only [beq_iff_eq] at hx
    simp only [hx, decide_eq_true_eq]
    exact h
  rw [hlast, hfilter]
  cases hs.find? (fun kv => kv.1 == lowerStr k') <;> rfl

/-- C1 (amended): for every asset group with compressed siblings, both
strategies' handlers return exactly the spec's priority choice
(brotli > zstd > gzip > uncompressed, the first variant that exists and
whose token the `Accept-Encoding` header contains); the disk handler and
every compressed-variant branch of the RAM handler set `Content-Length`
to the exact byte length of the returned body (and `Content-Encoding` to
the chosen token), but the RAM handler's uncompressed fallback responds
with only the user-supplied headers, adding no content headers at all. -/
theorem c1_variant_negotiation (g : AssetGroup) (contentType : String)
    (u : List (String × String)) (ae : Option String)
    (hcv : hasCompressedVariants g = true) :
    ((ramHandler g contentType u ae).body = (specVariantChoice g ae).2
      ∧ (diskHandler g contentType u ae).body = (specVariantChoice g ae).2)
    ∧ hget (diskHandler g contentType u ae).headers ("Content-Length")
        = some (toString (specVariantChoice g ae).2.length)
    ∧ (∀ enc, (specVariantChoice g ae).1 = some enc →
        hget (ramHandler g contentType u ae).headers ("Content-Length")
          = some (toString (specVariantChoice g ae).2.length)
        ∧ hget (ramHandler g contentType u ae).headers ("Content-Encoding")
          = some enc
        ∧ hget (diskHandler g contentType u ae).headers ("Content-Encoding")
          = some enc)
    ∧ ((specVariantChoice g ae).1 = none →
        (ramHandler g contentType u ae).headers = mkHeaders u) := by
  unfold ramHandler diskHandler specVariantChoice
  split_ifs with h1 h2 h3 <;>
    refine ⟨⟨rfl, rfl⟩, ?_, ?_, ?_⟩
  case _ =>
    exact hget_hset_self _ _ _
  case _ =>
    intro enc henc
    cases henc
    refine ⟨hget_hset_self _ _ _, ?_, ?_⟩
    · rw [hget_hset_other _ _ _ _ (by decide), hget_hset_other _ _ _ _ (by decide)]
      exact hget_hset_self _ _ _
    · rw [hget_hset_other _ _ _ _ (by decide)]
      exact hget_hset_self _ _ _
  case _ =>
    intro hnone
    cases hnone
  case _ =>
    exact hget_hset_self _ _ _
  case _ =>
    intro enc henc
    cases henc
    refine ⟨hget_hset_self _ _ _, ?_, ?_⟩
    · rw [hget_hset_other _ _ _ _ (by decide), hget_hset_other _ _ _ _ (by decide)]
      exact hget_hset_self _ _ _
    · rw [hget_hset_other _ _ _ _ (by decide)]
      exact hget_hset_self _ _ _
  case _ =>
    intro hnone
    cases hnone
  case _ =>
    exact hget_hset_self _ _ _
  case _ =>
    intro enc henc
    cases henc
    refine ⟨hget_hset_self _ _ _, ?_, ?_⟩
    · rw [hget_hset_other _ _ _ _ (by decide), hget_hset_other _ _ _ _ (by decide)]
      exact hget_hset_self _ _ _
    · rw [hget_hset_other _ _ _ _ (by decide)]
      exact hget_hset_self _ _ _
  case _ =>
    intro hnone
    cases hnone
  case _ =>
    exact hget_hset_self _ _ _
  case _ =>
    intro enc henc
    cases henc
  case _ =>
    intro _
    rfl

/-- C1 (witness): a group with brotli and gzip siblings, requested with
`Accept-Encoding: br, gzip`, returns the brotli bytes with a correct
`Content-Length` under both strategies. -/
theorem c1_witness :
    hasCompressedVariants ⟨[1, 2, 3], some [7, 8], none, some [9]⟩ = true
    ∧ (ramHandler ⟨[1, 2, 3], some [7, 8], none, some [9]⟩ ("text/css") []
        (some ("br, gzip"))).body
      = (specVariantChoice ⟨[1, 2, 3], some [7, 8], none, some [9]⟩
          (some ("br, gzip"))).2
    ∧ hget (diskHandler ⟨[1, 2, 3], some [7, 8], none, some [9]⟩ ("text/css") []
        (some ("br, gzip"))).headers ("Content-Length")
      = some (toString (specVariantChoice ⟨[1, 2, 3], some [7, 8], none, some [9]⟩
          (some ("br, gzip"))).2.length) := by
  have h := c1_variant_negotiation ⟨[1, 2, 3], some [7, 8], none, some [9]⟩
    ("text/css") [] (some ("br, gzip")) (by decide)
  exact ⟨by decide, h.1.1, h.2.1⟩

/-- C1 (counterexample): under the RAM strategy, a grouped asset with a
gzip sibling served to a client with no acceptable encoding falls back to
the uncompressed bytes but carries no `Content-Length` header at all
(lines 363: `new Response(bunFileBytes, { headers: userHeaders })`), so
the response's `Content-Length` does not equal the 3-byte body length. -/
theorem c1_counterexample :
    hasCompressedVariants ⟨[1, 2, 3], none, none, some [9]⟩ = true
    ∧ (ramHandler ⟨[1, 2, 3], none, none, some [9]⟩ ("text/plain") [] none).body.length
        = 3
    ∧ hget (ramHandler ⟨[1, 2, 3], none, none, some [9]⟩ ("text/plain") []
        none).headers ("Content-Length") = none := by
  decide

/-! ## C6 / C10 — compression pipeline -/

theorem app_gz_ne_zst (x y : String) : x ++ ".gz" ≠ y ++ ".zst" := by
  intro h
  have h2 := congrArg (fun s : String => s.toList.reverse) h
  simp only [str_toList_append, List.reverse_append] at h2
  have e1 : (".gz" : String).toList.reverse = ['z', 'g', '.'] := rfl
  have e2 : (".zst" : String).toList.reverse = ['t', 's', 'z', '.'] := rfl
  rw [e1, e2] at h2
  simp only [List.cons_append, List.nil_append] at h2
  injection h2 with h3 _
  exact absurd h3 (by decide)

theorem app_gz_ne_br (x y : String) : x ++ ".gz" ≠ y ++ ".br" := by
  intro h
  have h2 := congrArg (fun s : String => s.toList.reverse) h
  simp only [str_toList_append, List.reverse_append] at h2
  have e1 : (".gz" : String).toList.reverse = ['z', 'g', '.'] := rfl
  have e2 : (".br" : String).toList.reverse = ['r', 'b', '.'] := rfl
  rw [e1, e2] at h2
  simp only [List.cons_append, List.nil_append] at h2
  injection h2 with h3 _
  exact absurd h3 (by decide)

theorem app_zst_ne_br (x y : String) : x ++ ".zst" ≠ y ++ ".br" := by
  intro h
  have h2 := congrArg (fun s : String => s.toList.reverse) h
  simp only [str_toList_append, List.reverse_append] at h2
  have e1 : (".zst" : String).toList.reverse = ['t', 's', 'z', '.'] := rfl
  have e2 : (".br" : String).toList.reverse = ['r', 'b', '.'] := rfl
  rw [e1, e2] at h2
  simp only [List.cons_append, List.nil_append] at h2
  injection h2 with h3 _
  exact absurd h3 (by decide)

/-- Keys with equal first components in a list with `Nodup` keys carry
equal values. -/
theorem nodup_keys_eq {α : Type} {l : List (String × α)}
    (h : (l.map Prod.fst).Nodup) {a : String} {b b' : α}
    (h1 : (a, b) ∈ l) (h2 : (a, b') ∈ l) : b = b' := by
  induction l with
  | nil => cases h1
  | cons e rest ih =>
    simp only [List.map_cons, List.nodup_cons] at h
    rcases List.mem_cons.mp h1 with h1' | h1'
    · rcases List.mem_cons.mp h2 with h2' | h2'
      · exact congrArg Prod.snd (h1'.trans h2'.symm)
      · exfalso
        have ha : a ∈ rest.map Prod.fst := List.mem_map_of_mem Prod.fst h2'
        rw [← h1'] at h
        exact h.1 ha
    · rcases List.mem_cons.mp h2 with h2' | h2'
      · exfalso
        have ha : a ∈ rest.map Prod.fst := List.mem_map_of_mem Prod.fst h1'
        rw [← h2'] at h
        exact h.1 ha
      · exact ih h.2 h1' h2'

theorem mem_ite_singleton {α : Type} (cond : Prop) [Decidable cond] (x e : α) :
    (e ∈ (if cond then [x] else [])) ↔ e = x ∧ cond := by
  split_ifs with h <;> simp [h]

/-- Membership in the per-file write set. -/
theorem mem_writesForFile {c : Compressors} {name : String} {b : List Nat}
    {e : String × List Nat} :
    e ∈ writesForFile c name b ↔
      (e = (name ++ ".gz", c.gz b) ∧ (c.gz b).length < b.length)
      ∨ (e = (name ++ ".zst", c.zst b) ∧ (c.zst b).length < b.length)
      ∨ (e = (name ++ ".br", c.br b) ∧ (c.br b).length < b.length) := by
  unfold writesForFile
  simp only [List.mem_append, mem_ite_singleton, or_assoc]

/-- Membership in the full write set of one pass. -/
theorem mem_compressWrites {c : Compressors} {fs : List (String × List Nat)}
    {e : String × List Nat} :
    e ∈ compressWrites c fs ↔
      ∃ f ∈ fs, eligibleFile f.1 = true ∧ e ∈ writesForFile c f.1 f.2 := by
  induction fs with
  | nil => simp [compressWrites]
  | cons f rest ih =>
    unfold compressWrites at ih ⊢
    simp only [List.foldr_cons]
    cases heq : eligibleFile f.1 with
    | true =>
      rw [if_pos rfl]
      simp only [List.mem_append, ih]
      constructor
      · rintro (hw | ⟨g, hg, hge, hgw⟩)
        · exact ⟨f, List.mem_cons_self f rest, heq, hw⟩
        · exact ⟨g, List.mem_cons_of_mem f hg, hge, hgw⟩
      · rintro ⟨g, hg, hge, hgw⟩
        rcases List.mem_cons.mp hg with heq2 | hg'
        · subst heq2
          exact Or.inl hgw
        · exact Or.inr ⟨g, hg', hge, hgw⟩
    | false =>
      rw [if_neg (by decide)]
      rw [ih]
      constructor
      · rintro ⟨g, hg, hge, hgw⟩
        exact ⟨g, List.mem_cons_of_mem f hg, hge, hgw⟩
      · rintro ⟨g, hg, hge, hgw⟩
        rcases List.mem_cons.mp hg with heq2 | hg'
        · subst heq2
          rw [heq] at hge
          cases hge
        · exact ⟨g, hg', hge, hgw⟩

/-- An entry of the directory sharing the key of a known entry (under
`Nodup` keys) carries the known bytes. -/
theorem fs_value_eq {fs : List (String × List Nat)}
    (hnd : (fs.map Prod.fst).Nodup) {name : String} {b : List Nat}
    (hmem : (name, b) ∈ fs) {f : String × List Nat}
    (hf : f ∈ fs) (h1 : f.1 = name) : f.2 = b := by
  have hmem' : (name, f.2) ∈ fs := by
    rw [show (name, f.2) = f from by rw [← h1]]
    exact hf
  exact nodup_keys_eq hnd hmem' hmem

/-- C6: for every eligible file of the directory and each of the three
algorithms, the compressed sibling (`.gz`/`.zst`/`.br`) is written if and
only if the compressed byte length is strictly smaller than the original
byte length; when it is not smaller, no file with that sibling name is
written at all. -/
theorem c6_write_iff_smaller (c : Compressors) (fs : List (String × List Nat))
    (name : String) (b : List Nat)
    (hnd : (fs.map Prod.fst).Nodup) (hmem : (name, b) ∈ fs)
    (hel : eligibleFile name = true) :
    (((name ++ ".gz", c.gz b) ∈ compressWrites c fs) ↔ (c.gz b).length < b.length)
    ∧ (((name ++ ".zst", c.zst b) ∈ compressWrites c fs) ↔ (c.zst b).length < b.length)
    ∧ (((name ++ ".br", c.br b) ∈ compressWrites c fs) ↔ (c.br b).length < b.length)
    ∧ (¬(c.gz b).length < b.length →
        name ++ ".gz" ∉ (compressWrites c fs).map Prod.fst)
    ∧ (¬(c.zst b).length < b.length →
        name ++ ".zst" ∉ (compressWrites c fs).map Prod.fst)
    ∧ (¬(c.br b).length < b.length →
        name ++ ".br" ∉ (compressWrites c fs).map Prod.fst) := by
  have hfwd : ∀ q : String × List Nat, q ∈ compressWrites c fs →
      ∃ f ∈ fs, eligibleFile f.1 = true ∧
        ((q.1 = f.1 ++ ".gz" ∧ (c.gz f.2).length < f.2.length)
         ∨ (q.1 = f.1 ++ ".zst" ∧ (c.zst f.2).length < f.2.length)
         ∨ (q.1 = f.1 ++ ".br" ∧ (c.br f.2).length < f.2.length)) := by
    intro q hq
    rcases mem_compressWrites.mp hq with ⟨f, hf, hfe, hfw⟩
    rcases mem_writesForFile.mp hfw with ⟨he, hlt⟩ | ⟨he, hlt⟩ | ⟨he, hlt⟩
    · exact ⟨f, hf, hfe, Or.inl ⟨congrArg Prod.fst he, hlt⟩⟩
    · exact ⟨f, hf, hfe, Or.inr (Or.inl ⟨congrArg Prod.fst he, hlt⟩)⟩
    · exact ⟨f, hf, hfe, Or.inr (Or.inr ⟨congrArg Prod.fst he, hlt⟩)⟩
  have hkey : ∀ x : String, x ∈ (compressWrites c fs).map Prod.fst →
      ∃ f ∈ fs, eligibleFile f.1 = true ∧
        ((x = f.1 ++ ".gz" ∧ (c.gz f.2).length < f.2.length)
         ∨ (x = f.1 ++ ".zst" ∧ (c.zst f.2).length < f.2.length)
         ∨ (x = f.1 ++ ".br" ∧ (c.br f.2).length < f.2.length)) := by
    intro x hx
    rcases List.mem_map.mp hx with ⟨q, hq, hq1⟩
    rcases hfwd q hq with ⟨f, hf, hfe, hcase⟩
    exact ⟨f, hf, hfe, by rwa [hq1] at hcase⟩
  refine ⟨?_, ?_, ?_, ?_, ?_, ?_⟩
  · constructor
    · intro hin
      rcases hfwd _ hin with ⟨f, hf, _, hcase⟩
      rcases hcase with ⟨hk, hlt⟩ | ⟨hk, _⟩ | ⟨hk, _⟩
      · have hx : name = f.1 := str_append_right_cancel _ hk
        have hb : f.2 = b := fs_value_eq hnd hmem hf hx.symm
        rwa [hb] at hlt
      · exact absurd hk (app_gz_ne_zst name f.1)
      · exact absurd hk (app_gz_ne_br name f.1)
    · intro hlt
      exact mem_compressWrites.mpr
        ⟨(name, b), hmem, hel, mem_writesForFile.mpr (Or.inl ⟨rfl, hlt⟩)⟩
  · constructor
    · intro hin
      rcases hfwd _ hin with ⟨f, hf, _, hcase⟩
      rcases hcase with ⟨hk, _⟩ | ⟨hk, hlt⟩ | ⟨hk, _⟩
      · exact absurd hk.symm (app_gz_ne_zst f.1 name)
      · have hx : name = f.1 := str_append_right_cancel _ hk
        have hb : f.2 = b := fs_value_eq hnd hmem hf hx.symm
        rwa [hb] at hlt
      · exact absurd hk (app_zst_ne_br name f.1)
    · intro hlt
      exact mem_compressWrites.mpr
        ⟨(name, b), hmem, hel, mem_writesForFile.mpr (Or.inr (Or.inl ⟨rfl, hlt⟩))⟩
  · constructor
    · intro hin
      rcases hfwd _ hin with ⟨f, hf, _, hcase⟩
      rcases hcase with ⟨hk, _⟩ | ⟨hk, _⟩ | ⟨hk, hlt⟩
      · exact absurd hk.symm (app_gz_ne_br f.1 name)
      · exact absurd hk.symm (app_zst_ne_br f.1 name)
      · have hx : name = f.1 := str_append_right_cancel _ hk
        have hb : f.2 = b := fs_value_eq hnd hmem hf hx.symm
        rwa [hb] at hlt
    · intro hlt
      exact mem_compressWrites.mpr
        ⟨(name, b), hmem, hel, mem_writesForFile.mpr (Or.inr (Or.inr ⟨rfl, hlt⟩))⟩
  · intro hnlt hkeymem
    rcases hkey _ hkeymem with ⟨f, hf, _, hcase⟩
    rcases hcase with ⟨hk, hlt⟩ | ⟨hk, _⟩ | ⟨hk, _⟩
    · have hx : name = f.1 := str_append_right_cancel _ hk
      have hb : f.2 = b := fs_value_eq hnd hmem hf hx.symm
      rw [hb] at hlt
      exact hnlt hlt
    · exact absurd hk (app_gz_ne_zst name f.1)
    · exact absurd hk (app_gz_ne_br name f.1)
  · intro hnlt hkeymem
    rcases hkey _ hkeymem with ⟨f, hf, _, hcase⟩
    rcases hcase with ⟨hk, _⟩ | ⟨hk, hlt⟩ | ⟨hk, _⟩
    · exact absurd hk.symm (app_gz_ne_zst f.1 name)
    · have hx : name = f.1 := str_append_right_cancel _ hk
      have hb : f.2 = b := fs_value_eq hnd hmem hf hx.symm
      rw [hb] at hlt
      exact hnlt hlt
    · exact absurd hk (app_zst_ne_br name f.1)
  · intro hnlt hkeymem
    rcases hkey _ hkeymem with ⟨f, hf, _, hcase⟩
    rcases hcase with ⟨hk, _⟩ | ⟨hk, _⟩ | ⟨hk, hlt⟩
    · exact absurd hk.symm (app_gz_ne_br f.1 name)
    · exact absurd hk.symm (app_zst_ne_br f.1 name)
    · have hx : name = f.1 := str_append_right_cancel _ hk
      have hb : f.2 = b := fs_value_eq hnd hmem hf hx.symm
      rw [hb] at hlt
      exact hnlt hlt

/-- C6 (witness): a gzip routine that shrinks `[1,2,3]` to one byte writes
the `.gz` sibling, while a brotli routine that does not shrink writes no
`.br` sibling; checked on a one-file directory. -/
theorem c6_witness :
    (([("a.js", [1, 2, 3])] : List (String × List Nat)).map Prod.fst).Nodup
    ∧ (("a.js", ([1, 2, 3] : List Nat)) ∈ ([("a.js", [1, 2, 3])] : List (String × List Nat)))
    ∧ eligibleFile ("a.js") = true
    ∧ (("a.js" ++ ".gz", [7]) ∈
        compressWrites ⟨fun _ => [7], fun _ => [8], fun b => b⟩ [("a.js", [1, 2, 3])])
    ∧ ("a.js" ++ ".br" ∉
        (compressWrites ⟨fun _ => [7], fun _ => [8], fun b => b⟩
          [("a.js", [1, 2, 3])]).map Prod.fst) := by
  have h := c6_write_iff_smaller ⟨fun _ => [7], fun _ => [8], fun b => b⟩
    [("a.js", [1, 2, 3])] ("a.js") [1, 2, 3] (by decide) (by decide) (by decide)
  exact ⟨by decide, by decide, by decide,
    h.1.mpr (by decide), h.2.2.2.2.2 (by decide)⟩

theorem eligible_revhead (n : String) (h : eligibleFile n = true) :
    n.toList.reverse.head? = some 's' ∨ n.toList.reverse.head? = some 'l'
    ∨ n.toList.reverse.head? = some 'n' ∨ n.toList.reverse.head? = some 'g'
    ∨ n.toList.reverse.head? = some 'o' := by
  unfold eligibleFile strEndsWith at h
  simp only [Bool.or_eq_true, or_assoc] at h
  rcases h with h | h | h | h | h | h
  · exact Or.inl (startsWithChars_head
      (show startsWithChars ('s' :: ['j', '.']) n.toList.reverse = true from h))
  · exact Or.inl (startsWithChars_head
      (show startsWithChars ('s' :: ['s', 'c', '.']) n.toList.reverse = true from h))
  · exact Or.inr (Or.inl (startsWithChars_head
      (show startsWithChars ('l' :: ['m', 't', 'h', '.']) n.toList.reverse = true from h)))
  · exact Or.inr (Or.inr (Or.inl (startsWithChars_head
      (show startsWithChars ('n' :: ['o', 's', 'j', '.']) n.toList.reverse = true from h))))
  · exact Or.inr (Or.inr (Or.inr (Or.inl (startsWithChars_head
      (show startsWithChars ('g' :: ['v', 's', '.']) n.toList.reverse = true from h)))))
  · exact Or.inr (Or.inr (Or.inr (Or.inr (startsWithChars_head
      (show startsWithChars ('o' :: ['c', 'i', '.']) n.toList.reverse = true from h)))))

theorem compressed_revhead (n : String)
    (h : (strEndsWith n (".gz") || strEndsWith n (".zst")
          || strEndsWith n (".br")) = true) :
    n.toList.reverse.head? = some 'z' ∨ n.toList.reverse.head? = some 't'
    ∨ n.toList.reverse.head? = some 'r' := by
  unfold strEndsWith at h
  simp only [Bool.or_eq_true, or_assoc] at h
  rcases h with h | h | h
  · exact Or.inl (startsWithChars_head
      (show startsWithChars ('z' :: ['g', '.']) n.toList.reverse = true from h))
  · exact Or.inr (Or.inl (startsWithChars_head
      (show startsWithChars ('t' :: ['s', 'z', '.']) n.toList.reverse = true from h)))
  · exact Or.inr (Or.inr (startsWithChars_head
      (show startsWithChars ('r' :: ['b', '.']) n.toList.reverse = true from h)))

/-- A name carrying a compression extension never matches the allow-list. -/
theorem compressed_not_eligible (n : String)
    (h : (strEndsWith n (".gz") || strEndsWith n (".zst")
          || strEndsWith n (".br")) = true) :
    eligibleFile n = false := by
  cases he : eligibleFile n
  · rfl
  · exfalso
    rcases eligible_revhead n he with h1 | h1 | h1 | h1 | h1 <;>
      rcases compressed_revhead n h with h2 | h2 | h2 <;>
        (rw [h1] at h2; exact absurd h2 (by decide))

/-- Every key produced by a compression pass carries a compression
extension. -/
theorem compressWrites_key_compressed {c : Compressors}
    {fs : List (String × List Nat)} {p : String}
    (hp : p ∈ (compressWrites c fs).map Prod.fst) :
    (strEndsWith p (".gz") || strEndsWith p (".zst")
      || strEndsWith p (".br")) = true := by
  rcases List.mem_map.mp hp with ⟨q, hq, hq1⟩
  subst hq1
  rcases mem_compressWrites.mp hq with ⟨f, _, _, hw⟩
  rcases mem_writesForFile.mp hw with ⟨he, _⟩ | ⟨he, _⟩ | ⟨he, _⟩ <;>
    rw [he] <;> simp [strEndsWith_append]

theorem mem_fsUpsert {fs : List (String × List Nat)} {w e : String × List Nat}
    (h : e ∈ fsUpsert fs w) : e ∈ fs ∨ e = w := by
  unfold fsUpsert at h
  split_ifs at h with hc
  · rcases List.mem_map.mp h with ⟨x, hx, hxe⟩
    by_cases hxw : (x.1 == w.1) = true
    · rw [if_pos hxw] at hxe
      exact Or.inr hxe.symm
    · rw [if_neg hxw] at hxe
      exact Or.inl (hxe ▸ hx)
  · rcases List.mem_append.mp h with h' | h'
    · exact Or.inl h'
    · exact Or.inr (List.mem_singleton.mp h')

theorem keys_fsUpsert_superset {fs : List (String × List Nat)}
    {w : String × List Nat} {p : String} (h : p ∈ fs.map Prod.fst) :
    p ∈ (fsUpsert fs w).map Prod.fst := by
  unfold fsUpsert
  split_ifs with hc
  · rcases List.mem_map.mp h with ⟨x, hx, hx1⟩
    apply List.mem_map.mpr
    refine ⟨if (x.1 == w.1) = true then w else x, List.mem_map_of_mem _ hx, ?_⟩
    by_cases hxw : (x.1 == w.1) = true
    · rw [if_pos hxw]
      rw [← hx1]
      exact (beq_iff_eq.mp hxw).symm
    · rw [if_neg hxw]
      exact hx1
  · rw [List.map_append]
    exact List.mem_append_left _ h

theorem keys_fsUpsert_new {fs : List (String × List Nat)}
    {w : String × List Nat} : w.1 ∈ (fsUpsert fs w).map Prod.fst := by
  unfold fsUpsert
  split_ifs with hc
  · rcases List.any_eq_true.mp hc with ⟨x, hx, hxw⟩
    apply List.mem_map.mpr
    exact ⟨w, List.mem_map.mpr ⟨x, hx, by rw [if_pos hxw]⟩, rfl⟩
  · rw [List.map_append]
    exact List.mem_append_right _ (by simp)

theorem keys_fsUpsert_sub {fs : List (String × List Nat)}
    {w : String × List Nat} {p : String}
    (h : p ∈ (fsUpsert fs w).map Prod.fst) :
    p ∈ fs.map Prod.fst ∨ p = w.1 := by
  unfold fsUpsert at h
  split_ifs at h with hc
  · rcases List.mem_map.mp h with ⟨y, hy, hy1⟩
    rcases List.mem_map.mp hy with ⟨x, hx, hxy⟩
    by_cases hxw : (x.1 == w.1) = true
    · rw [if_pos hxw] at hxy
      exact Or.inr (by rw [← hy1, ← hxy])
    · rw [if_neg hxw] at hxy
      exact Or.inl (List.mem_map.mpr ⟨x, hx, by rw [hxy, hy1]⟩)
  · rw [List.map_append] at h
    rcases List.mem_append.mp h with h' | h'
    · exact Or.inl h'
    · exact Or.inr (by simpa using h')

theorem mem_applyWrites {fs ws : List (String × List Nat)}
    {e : String × List Nat} (h : e ∈ applyWrites fs ws) : e ∈ fs ∨ e ∈ ws := by
  induction ws generalizing fs with
  | nil => exact Or.inl h
  | cons w ws ih =>
    have h' : e ∈ applyWrites (fsUpsert fs w) ws := h
    rcases ih h' with h'' | h''
    · rcases mem_fsUpsert h'' with h3 | h3
      · exact Or.inl h3
      · exact Or.inr (by simp [h3])
    · exact Or.inr (List.mem_cons_of_mem w h'')

theorem keys_applyWrites_left {fs ws : List (String × List Nat)} {p : String}
    (h : p ∈ fs.map Prod.fst) : p ∈ (applyWrites fs ws).map Prod.fst := by
  induction ws generalizing fs with
  | nil => exact h
  | cons w ws ih => exact ih (keys_fsUpsert_superset h)

theorem keys_applyWrites_right {fs ws : List (String × List Nat)} {p : String}
    (h : p ∈ ws.map Prod.fst) : p ∈ (applyWrites fs ws).map Prod.fst := by
  induction ws generalizing fs with
  | nil => cases h
  | cons w ws ih =>
    rcases List.mem_map.mp h with ⟨x, hx, hx1⟩
    rcases List.mem_cons.mp hx with heq | hx'
    · have hnew : p ∈ (fsUpsert fs w).map Prod.fst := by
        rw [← hx1, heq]
        exact keys_fsUpsert_new
      show p ∈ (applyWrites (fsUpsert fs w) ws).map Prod.fst
      exact keys_applyWrites_left hnew
    · exact ih (List.mem_map.mpr ⟨x, hx', hx1⟩)

theorem keys_applyWrites_sub {fs ws : List (String × List Nat)} {p : String}
    (h : p ∈ (applyWrites fs ws).map Prod.fst) :
    p ∈ fs.map Prod.fst ∨ p ∈ ws.map Prod.fst := by
  induction ws generalizing fs with
  | nil => exact Or.inl h
  | cons w ws ih =>
    have h' : p ∈ (applyWrites (fsUpsert fs w) ws).map Prod.fst := h
    rcases ih h' with h'' | h''
    · rcases keys_fsUpsert_sub h'' with h3 | h3
      · exact Or.inl h3
      · exact Or.inr (by simp [h3])
    · exact Or.inr (by
        rw [List.map_cons]
        exact List.mem_cons_of_mem _ h'')

/-- Entries of the post-pass directory with an allow-listed name already
existed before the pass (the pass only writes compression-suffixed
names). -/
theorem run_eligible_entry {c : Compressors} {fs : List (String × List Nat)}
    {e : String × List Nat} (he : e ∈ compressFilesInDir c fs)
    (hel : eligibleFile e.1 = true) : e ∈ fs := by
  rcases mem_applyWrites he with h | h
  · exact h
  · exfalso
    have hk := compressWrites_key_compressed (List.mem_map_of_mem Prod.fst h)
    rw [compressed_not_eligible _ hk] at hel
    cases hel

/-- C10: the allow-list is exactly the six compressible extensions, a
name carrying a compression extension never matches it (so compressed
variants are never re-compressed), and a second `compressFilesInDir` pass
over the directory creates no file name beyond those present after the
first pass. -/
theorem c10_allowlist_and_stability (c : Compressors)
    (fs : List (String × List Nat)) :
    (∀ name, eligibleFile name = true ↔
      (strEndsWith name (".js") = true ∨ strEndsWith name (".css") = true
       ∨ strEndsWith name (".html") = true ∨ strEndsWith name (".json") = true
       ∨ strEndsWith name (".svg") = true ∨ strEndsWith name (".ico") = true))
    ∧ (∀ name, (strEndsWith name (".gz") || strEndsWith name (".zst")
          || strEndsWith name (".br")) = true → eligibleFile name = false)
    ∧ (∀ p, p ∈ (compressFilesInDir c (compressFilesInDir c fs)).map Prod.fst ↔
        p ∈ (compressFilesInDir c fs).map Prod.fst) := by
  refine ⟨?_, ?_, ?_⟩
  · intro name
    unfold eligibleFile
    simp [Bool.or_eq_true, or_assoc]
  · intro name h
    exact compressed_not_eligible name h
  · intro p
    constructor
    · intro h
      rcases keys_applyWrites_sub h with h' | h'
      · exact h'
      · rcases List.mem_map.mp h' with ⟨q, hq, hq1⟩
        rcases mem_compressWrites.mp hq with ⟨f, hf, hfe, hfw⟩
        have hffs : f ∈ fs := run_eligible_entry hf hfe
        have hqW : q ∈ compressWrites c fs :=
          mem_compressWrites.mpr ⟨f, hffs, hfe, hfw⟩
        exact keys_applyWrites_right (hq1 ▸ List.mem_map_of_mem Prod.fst hqW)
    · intro h
      exact keys_applyWrites_left h

/-- C10 (witness): an already-compressed name is ineligible, and on a
concrete one-file directory a second pass adds no key beyond the first
pass's. -/
theorem c10_witness :
    eligibleFile ("main.js.gz") = false
    ∧ ("a.js" ++ ".gz" ∈
        (compressFilesInDir ⟨fun _ => [7], fun _ => [8], fun b => b⟩
          (compressFilesInDir ⟨fun _ => [7], fun _ => [8], fun b => b⟩
            [("a.js", [1, 2, 3])])).map Prod.fst
      ↔ "a.js" ++ ".gz" ∈
        (compressFilesInDir ⟨fun _ => [7], fun _ => [8], fun b => b⟩
          [("a.js", [1, 2, 3])]).map Prod.fst) := by
  have h := c10_allowlist_and_stability
    ⟨fun _ => [7], fun _ => [8], fun b => b⟩ [("a.js", [1, 2, 3])]
  exact ⟨h.2.1 ("main.js.gz") (by decide), h.2.2 ("a.js" ++ ".gz")⟩

/-! ## C3 / C7 — dependency resolver -/

/-- One step of the dependency-appending fold of lines 618-632 (with the
`Option.map`/`let` of the source reduced by case analysis on the map
lookup). -/
def appendDepStep (publicAssetPath : String) (files : List JsFile)
    (js : List JsAsset) (d : String) : List JsAsset :=
  match files.find? (fun f => f.basename == d) with
  | none => js
  | some f =>
    if js.any (fun a => a.urlPath == publicAssetPath ++ d) then js
    else
      js ++ [{ urlPath := publicAssetPath ++ d, filePath := f.fullPath, kind := "chunk" }]

theorem appendDepStep_none {publicAssetPath : String} {files : List JsFile}
    {js : List JsAsset} {d : String}
    (hfind : files.find? (fun f => f.basename == d) = none) :
    appendDepStep publicAssetPath files js d = js := by
  unfold appendDepStep
  rw [hfind]

theorem appendDepStep_some {publicAssetPath : String} {files : List JsFile}
    {js : List JsAsset} {d : String} {f : JsFile}
    (hfind : files.find? (fun f => f.basename == d) = some f) :
    appendDepStep publicAssetPath files js d
      = if js.any (fun a => a.urlPath == publicAssetPath ++ d) then js
        else js ++ [{ urlPath := publicAssetPath ++ d, filePath := f.fullPath, kind := "chunk" }] := by
  unfold appendDepStep
  rw [hfind]

theorem appendDeps_eq_foldl (publicAssetPath : String) (files : List JsFile)
    (jsFiles : List JsAsset) (deps : List String) :
    appendDeps publicAssetPath files jsFiles deps
      = deps.foldl (appendDepStep publicAssetPath files) jsFiles := by
  unfold appendDeps appendDepStep
  congr 1
  funext js d
  cases files.find? (fun f => f.basename == d) <;> rfl

/-- `appendDeps` only appends chunk-kind assets at the end. -/
theorem appendDeps_shape (publicAssetPath : String) (files : List JsFile)
    (deps : List String) : ∀ jsFiles : List JsAsset,
    ∃ xs, appendDeps publicAssetPath files jsFiles deps = jsFiles ++ xs
      ∧ ∀ a ∈ xs, a.kind = "chunk" := by
  induction deps with
  | nil => exact fun jsFiles => ⟨[], by rw [appendDeps_eq_foldl]; simp, by simp⟩
  | cons d ds ih =>
    intro jsFiles
    have hstep : ∃ xs0, appendDepStep publicAssetPath files jsFiles d
        = jsFiles ++ xs0 ∧ ∀ a ∈ xs0, a.kind = "chunk" := by
      cases hfind : files.find? (fun f => f.basename == d) with
      | none => exact ⟨[], by rw [appendDepStep_none hfind]; simp, by simp⟩
      | some f =>
        by_cases hany :
            (jsFiles.any (fun a => a.urlPath == publicAssetPath ++ d)) = true
        · exact ⟨[], by rw [appendDepStep_some hfind, if_pos hany]; simp, by simp⟩
        · exact ⟨[{ urlPath := publicAssetPath ++ d, filePath := f.fullPath, kind := "chunk" }],
            by rw [appendDepStep_some hfind, if_neg hany], by simp⟩
    rcases hstep with ⟨xs0, hs0, hc0⟩
    rcases ih (appendDepStep publicAssetPath files jsFiles d) with ⟨xs1, hs1, hc1⟩
    refine ⟨xs0 ++ xs1, ?_, ?_⟩
    · rw [appendDeps_eq_foldl, List.foldl_cons, ← appendDeps_eq_foldl, hs1, hs0,
        List.append_assoc]
    · intro a ha
      rcases List.mem_append.mp ha with ha' | ha'
      · exact hc0 a ha'
      · exact hc1 a ha'

/-- Membership among the urlPaths is preserved by `appendDeps`. -/
theorem appendDeps_mono (publicAssetPath : String) (files : List JsFile)
    (deps : List String) (jsFiles : List JsAsset) {u : String}
    (h : u ∈ jsFiles.map (fun a => a.urlPath)) :
    u ∈ (appendDeps publicAssetPath files jsFiles deps).map (fun a => a.urlPath) := by
  rcases appendDeps_shape publicAssetPath files deps jsFiles with ⟨xs, hs, _⟩
  rw [hs, List.map_append]
  exact List.mem_append_left _ h

/-- After `appendDeps`, every collected dependency whose file exists is
present by urlPath. -/
theorem appendDeps_covers (publicAssetPath : String) (files : List JsFile)
    (deps : List String) : ∀ jsFiles : List JsAsset, ∀ d ∈ deps,
    (files.find? (fun f => f.basename == d)).isSome = true →
    publicAssetPath ++ d
      ∈ (appendDeps publicAssetPath files jsFiles deps).map (fun a => a.urlPath) := by
  induction deps with
  | nil =>
    intro _ d hd
    cases hd
  | cons d0 ds ih =>
    intro jsFiles d hd hsome
    rw [appendDeps_eq_foldl, List.foldl_cons, ← appendDeps_eq_foldl]
    rcases List.mem_cons.mp hd with heq | hd'
    · subst heq
      apply appendDeps_mono
      cases hfind : files.find? (fun f => f.basename == d) with
      | none =>
        rw [hfind] at hsome
        cases hsome
      | some f =>
        rw [appendDepStep_some hfind]
        by_cases hany :
            (jsFiles.any (fun a => a.urlPath == publicAssetPath ++ d)) = true
        · rw [if_pos hany]
          rcases List.any_eq_true.mp hany with ⟨a, ha, hau⟩
          rw [← beq_iff_eq.mp hau]
          exact List.mem_map_of_mem _ ha
        · rw [if_neg hany, List.map_append]
          exact List.mem_append_right _ (by simp)
    · exact ih _ d hd' hsome

/-- `appendDeps` is a no-op when every resolvable dependency is already
present by urlPath. -/
theorem appendDeps_noop (publicAssetPath : String) (files : List JsFile)
    (deps : List String) : ∀ jsFiles : List JsAsset,
    (∀ d ∈ deps, (files.find? (fun f => f.basename == d)).isSome = true →
      publicAssetPath ++ d ∈ jsFiles.map (fun a => a.urlPath)) →
    appendDeps publicAssetPath files jsFiles deps = jsFiles := by
  induction deps with
  | nil =>
    intro jsFiles _
    rw [appendDeps_eq_foldl]
    rfl
  | cons d ds ih =>
    intro jsFiles h
    rw [appendDeps_eq_foldl, List.foldl_cons, ← appendDeps_eq_foldl]
    have hstep : appendDepStep publicAssetPath files jsFiles d = jsFiles := by
      cases hfind : files.find? (fun f => f.basename == d) with
      | none => exact appendDepStep_none hfind
      | some f =>
        have hmem := h d (List.mem_cons_self d ds) (by rw [hfind]; rfl)
        have hany : (jsFiles.any (fun a => a.urlPath == publicAssetPath ++ d)) = true := by
          rcases List.mem_map.mp hmem with ⟨a, ha, hau⟩
          exact List.any_eq_true.mpr ⟨a, ha, beq_iff_eq.mpr hau⟩
        rw [appendDepStep_some hfind, if_pos hany]
    rw [hstep]
    exact ih jsFiles (fun d' hd' => h d' (List.mem_cons_of_mem d hd'))

theorem staticallyRefs_eq_true (publicAssetPath content ob : String) :
    staticallyRefs publicAssetPath content ob = true ↔
      strContains content (pathJoin publicAssetPath ob) = true
      ∧ dynamicallyImports content (pathJoin publicAssetPath ob) = false := by
  unfold staticallyRefs
  simp [Bool.and_eq_true, Bool.not_eq_true']

/-- Characterisation of the recorded reference set. -/
theorem mem_refsOf {publicAssetPath : String} {files : List JsFile}
    {bn content b : String} :
    b ∈ refsOf publicAssetPath files bn content ↔
      (∃ g ∈ files, g.basename = b) ∧ b ≠ bn
      ∧ strContains content (pathJoin publicAssetPath b) = true
      ∧ dynamicallyImports content (pathJoin publicAssetPath b) = false := by
  unfold refsOf
  rw [List.mem_map]
  constructor
  · rintro ⟨g, hg, hgb⟩
    rw [List.mem_filter] at hg
    have hcond := hg.2
    simp only [Bool.and_eq_true, decide_eq_true_eq] at hcond
    subst hgb
    exact ⟨⟨g, hg.1, rfl⟩, hcond.1,
      (staticallyRefs_eq_true _ _ _).mp hcond.2⟩
  · rintro ⟨⟨g, hgf, hgb⟩, hne, hc, hd⟩
    subst hgb
    refine ⟨g, List.mem_filter.mpr ⟨hgf, ?_⟩, rfl⟩
    simp only [Bool.and_eq_true, decide_eq_true_eq]
    exact ⟨hne, (staticallyRefs_eq_true _ _ _).mpr ⟨hc, hd⟩⟩

theorem lookup_mem {β : Type} {l : List (String × β)} {k : String} {v : β}
    (h : l.lookup k = some v) : (k, v) ∈ l := by
  induction l with
  | nil => cases h
  | cons e rest ih =>
    cases e with
    | mk k1 v1 =>
      by_cases hbe : (k == k1) = true
      · have hk : k = k1 := beq_iff_eq.mp hbe
        have : some v1 = some v := by
          rw [← h]
          simp [List.lookup, hbe]
        subst hk
        rw [Option.some.injEq] at this
        rw [this]
        exact List.mem_cons_self _ _
      · have h' : rest.lookup k = some v := by
          rw [← h]
          simp [List.lookup, hbe]
        exact List.mem_cons_of_mem _ (ih h')

/-- Everything `collectDeps` adds comes from some recorded reference set. -/
theorem collectDeps_sub (refMap : List (String × List String)) :
    ∀ (fuel : Nat) (acc : List String) (bn x : String),
      x ∈ collectDeps refMap fuel acc bn →
      x ∈ acc ∨ ∃ k rs, (k, rs) ∈ refMap ∧ x ∈ rs := by
  intro fuel
  induction fuel with
  | zero =>
    intro acc bn x h
    exact Or.inl h
  | succ fuel ih =>
    intro acc bn x h
    unfold collectDeps at h
    cases hlook : refMap.lookup bn with
    | none =>
      rw [hlook] at h
      exact Or.inl h
    | some refs =>
      rw [hlook] at h
      have hmem := lookup_mem hlook
      have key : ∀ (rs : List String), (∀ r ∈ rs, r ∈ refs) →
          ∀ (acc : List String), x ∈ rs.foldl
            (fun acc ref => if acc.contains ref then acc
              else collectDeps refMap fuel (acc ++ [ref]) ref) acc →
          x ∈ acc ∨ ∃ k rs', (k, rs') ∈ refMap ∧ x ∈ rs' := by
        intro rs
        induction rs with
        | nil =>
          intro _ acc h'
          exact Or.inl h'
        | cons r rs ihr =>
          intro hsub acc h'
          rw [List.foldl_cons] at h'
          rcases ihr (fun r' hr' => hsub r' (List.mem_cons_of_mem r hr')) _ h'
            with h'' | h''
          · by_cases hc : (acc.contains r) = true
            · rw [if_pos hc] at h''
              exact Or.inl h''
            · rw [if_neg hc] at h''
              rcases ih _ _ _ h'' with h3 | h3
              · rcases List.mem_append.mp h3 with h4 | h4
                · exact Or.inl h4
                · have hxr : x = r := by simpa using h4
                  exact Or.inr ⟨bn, refs, hmem,
                    hxr ▸ hsub r (List.mem_cons_self r rs)⟩
              · exact Or.inr h3
          · exact Or.inr h''
      exact key refs (fun r hr => hr) acc h

/-- Keys appended by `appendDeps` are url paths of the supplied deps. -/
theorem appendDeps_urls_sub (publicAssetPath : String) (files : List JsFile)
    (deps : List String) : ∀ (jsFiles : List JsAsset) (u : String),
    u ∈ (appendDeps publicAssetPath files jsFiles deps).map (fun a => a.urlPath) →
    u ∈ jsFiles.map (fun a => a.urlPath) ∨ ∃ d ∈ deps, u = publicAssetPath ++ d := by
  induction deps with
  | nil =>
    intro jsFiles u h
    rw [appendDeps_eq_foldl] at h
    exact Or.inl h
  | cons d ds ih =>
    intro jsFiles u h
    rw [appendDeps_eq_foldl, List.foldl_cons, ← appendDeps_eq_foldl] at h
    rcases ih _ u h with h' | h'
    · cases hfind : files.find? (fun f => f.basename == d) with
      | none =>
        rw [appendDepStep_none hfind] at h'
        exact Or.inl h'
      | some f =>
        rw [appendDepStep_some hfind] at h'
        by_cases hany :
            (jsFiles.any (fun a => a.urlPath == publicAssetPath ++ d)) = true
        · rw [if_pos hany] at h'
          exact Or.inl h'
        · rw [if_neg hany, List.map_append] at h'
          rcases List.mem_append.mp h' with h3 | h3
          · exact Or.inl h3
          · have : u = publicAssetPath ++ d := by simpa using h3
            exact Or.inr ⟨d, List.mem_cons_self d ds, this⟩
    · rcases h' with ⟨d', hd', hu⟩
      exact Or.inr ⟨d', List.mem_cons_of_mem d hd', hu⟩

theorem resolvePage_eq_of_none (publicAssetPath : String) (files : List JsFile)
    (l : List JsAsset)
    (hfind : l.find? (fun f => f.kind == "entrypoint") = none) :
    resolvePage publicAssetPath files l = l := by
  unfold resolvePage
  rw [hfind]

theorem resolvePage_eq_of_some (publicAssetPath : String) (files : List JsFile)
    (l : List JsAsset) (ep : JsAsset)
    (hfind : l.find? (fun f => f.kind == "entrypoint") = some ep) :
    resolvePage publicAssetPath files l
      = appendDeps publicAssetPath files l
          (collectDeps (referenceMap publicAssetPath files) (files.length + 1) []
            (pathBasename ep.urlPath)) := by
  unfold resolvePage
  rw [hfind]

/-- `appendDeps` preserves duplicate-freeness of the url paths: the
already-present check of line 624 never lets a url path in twice. -/
theorem appendDeps_nodup (publicAssetPath : String) (files : List JsFile)
    (deps : List String) : ∀ jsFiles : List JsAsset,
    ((jsFiles.map (fun a => a.urlPath)).Nodup) →
    (((appendDeps publicAssetPath files jsFiles deps).map (fun a => a.urlPath)).Nodup) := by
  induction deps with
  | nil =>
    intro jsFiles h
    rw [appendDeps_eq_foldl]
    exact h
  | cons d ds ih =>
    intro jsFiles h
    rw [appendDeps_eq_foldl, List.foldl_cons, ← appendDeps_eq_foldl]
    apply ih
    cases hfind : files.find? (fun f => f.basename == d) with
    | none =>
      rw [appendDepStep_none hfind]
      exact h
    | some f =>
      rw [appendDepStep_some hfind]
      by_cases hany :
          (jsFiles.any (fun a => a.urlPath == publicAssetPath ++ d)) = true
      · rw [if_pos hany]
        exact h
      · rw [if_neg hany, List.map_append]
        have hnot : publicAssetPath ++ d ∉ jsFiles.map (fun a => a.urlPath) := by
          intro hmem
          rcases List.mem_map.mp hmem with ⟨a, ha, hau⟩
          exact hany (List.any_eq_true.mpr ⟨a, ha, beq_iff_eq.mpr hau⟩)
        rw [List.nodup_append]
        refine ⟨h, by simp, ?_⟩
        intro u hu
        simp only [List.map_cons, List.map_nil, List.mem_singleton]
        intro hu2
        exact hnot (hu2 ▸ hu)

theorem resolvePage_nodup (publicAssetPath : String) (files : List JsFile)
    (l : List JsAsset) (h : ((l.map (fun a => a.urlPath)).Nodup)) :
    (((resolvePage publicAssetPath files l).map (fun a => a.urlPath)).Nodup) := by
  cases hfind : l.find? (fun f => f.kind == "entrypoint") with
  | none =>
    rw [resolvePage_eq_of_none _ _ _ hfind]
    exact h
  | some ep =>
    rw [resolvePage_eq_of_some _ _ _ _ hfind]
    exact appendDeps_nodup _ _ _ _ h

theorem resolvePage_idem (publicAssetPath : String) (files : List JsFile)
    (l : List JsAsset) :
    resolvePage publicAssetPath files (resolvePage publicAssetPath files l)
      = resolvePage publicAssetPath files l := by
  cases hfind : l.find? (fun f => f.kind == "entrypoint") with
  | none =>
    rw [resolvePage_eq_of_none _ _ _ hfind, resolvePage_eq_of_none _ _ _ hfind]
  | some ep =>
    rw [resolvePage_eq_of_some _ _ _ _ hfind]
    rcases appendDeps_shape publicAssetPath files
      (collectDeps (referenceMap publicAssetPath files) (files.length + 1) []
        (pathBasename ep.urlPath)) l with ⟨xs, hs, _⟩
    have hfind2 : (appendDeps publicAssetPath files l
        (collectDeps (referenceMap publicAssetPath files) (files.length + 1) []
          (pathBasename ep.urlPath))).find? (fun f => f.kind == "entrypoint")
        = some ep := by
      rw [hs, List.find?_append, hfind]
      rfl
    rw [resolvePage_eq_of_some _ _ _ _ hfind2]
    apply appendDeps_noop
    intro d hd hsome
    exact appendDeps_covers publicAssetPath files _ l d hd hsome

/-- C7: the resolver never appends a dependency whose url path is already
present (so per-page asset lists stay duplicate-free), and running it on
its own output changes nothing. -/
theorem c7_resolver_dedup_idempotent (publicAssetPath : String)
    (files : List JsFile) (pages : List (String × List JsAsset)) :
    (∀ e ∈ pages, ((e.2.map (fun a => a.urlPath)).Nodup) →
      (((resolvePage publicAssetPath files e.2).map (fun a => a.urlPath)).Nodup))
    ∧ resolveJsDependencies publicAssetPath files
        (resolveJsDependencies publicAssetPath files pages)
      = resolveJsDependencies publicAssetPath files pages := by
  constructor
  · intro e _ h
    exact resolvePage_nodup publicAssetPath files e.2 h
  · unfold resolveJsDependencies
    rw [List.map_map]
    apply List.map_congr_left
    intro e _
    simp only [Function.comp]
    rw [resolvePage_idem]

/-- C7 (witness): an entry point referencing one chunk resolves to a
duplicate-free two-asset list, and a second resolution pass is the
identity on the result; checked on concrete files. -/
theorem c7_witness :
    (((([⟨"/dist/client/a-1.js", "/d/a-1.js", "entrypoint"⟩] : List JsAsset).map
        (fun a => a.urlPath)).Nodup)
      → (((resolvePage ("/dist/client/")
          [⟨"a-1.js", "/d/a-1.js", "ref /dist/client/b-2.js here"⟩,
           ⟨"b-2.js", "/d/b-2.js", ""⟩]
          [⟨"/dist/client/a-1.js", "/d/a-1.js", "entrypoint"⟩]).map
            (fun a => a.urlPath)).Nodup))
    ∧ resolveJsDependencies ("/dist/client/")
        [⟨"a-1.js", "/d/a-1.js", "ref /dist/client/b-2.js here"⟩,
         ⟨"b-2.js", "/d/b-2.js", ""⟩]
        (resolveJsDependencies ("/dist/client/")
          [⟨"a-1.js", "/d/a-1.js", "ref /dist/client/b-2.js here"⟩,
           ⟨"b-2.js", "/d/b-2.js", ""⟩]
          [("p", [⟨"/dist/client/a-1.js", "/d/a-1.js", "entrypoint"⟩])])
      = resolveJsDependencies ("/dist/client/")
          [⟨"a-1.js", "/d/a-1.js", "ref /dist/client/b-2.js here"⟩,
           ⟨"b-2.js", "/d/b-2.js", ""⟩]
          [("p", [⟨"/dist/client/a-1.js", "/d/a-1.js", "entrypoint"⟩])] := by
  have h := c7_resolver_dedup_idempotent ("/dist/client/")
    [⟨"a-1.js", "/d/a-1.js", "ref /dist/client/b-2.js here"⟩,
     ⟨"b-2.js", "/d/b-2.js", ""⟩]
    [("p", [⟨"/dist/client/a-1.js", "/d/a-1.js", "entrypoint"⟩])]
  exact ⟨h.1 ("p", [⟨"/dist/client/a-1.js", "/d/a-1.js", "entrypoint"⟩])
    (by simp), h.2⟩

/-- Modelled from the spec: the claim's reference criterion — the
referencing file's text contains the plain concatenation
`publicAssetPath + basename(B)` and does not contain that substring
wrapped in a dynamic-import call.  (The source uses
`path.join(publicAssetPath, otherBasename)` instead; the two differ when
`publicAssetPath` lacks a trailing slash.) -/
def specStaticRefCriterion (publicAssetPath content ob : String) : Bool :=
  strContains content (publicAssetPath ++ ob) &&
  !(dynamicallyImports content (publicAssetPath ++ ob))

/-- C3 (counterexample): with `publicAssetPath = "/dist/client"` (no
trailing slash), a file whose text contains the plain concatenation
`"/dist/clientb.js"` (and no dynamic import of it) satisfies the claim's
criterion, yet the code records no reference, because it searches for
`path.join("/dist/client", "b.js") = "/dist/client/b.js"`. -/
theorem c3_counterexample :
    specStaticRefCriterion ("/dist/client") ("x /dist/clientb.js y") ("b.js") = true
    ∧ refsOf ("/dist/client")
        [⟨"a.js", "/d/a.js", "x /dist/clientb.js y"⟩, ⟨"b.js", "/d/b.js", ""⟩]
        ("a.js") ("x /dist/clientb.js y") = [] := by
  refine ⟨by decide, by decide⟩

/-- C3 (amended): A is recorded as statically referencing B iff B is one
of the scanned files, distinct from A, and A's text contains
`path.join(publicAssetPath, basename(B))` without a dynamic-import
wrapping of it; when `publicAssetPath` ends in `/`, that joined pattern
coincides with the plain concatenation the claim describes.  A file that
no file statically references (in particular one referenced only through
dynamic-import wrappings) is never added to any page's resolved asset
list. -/
theorem c3_static_reference_rule (publicAssetPath : String)
    (files : List JsFile) (bn content b : String) :
    (b ∈ refsOf publicAssetPath files bn content ↔
      (∃ g ∈ files, g.basename = b) ∧ b ≠ bn
      ∧ strContains content (pathJoin publicAssetPath b) = true
      ∧ dynamicallyImports content (pathJoin publicAssetPath b) = false)
    ∧ (strEndsWith publicAssetPath ("/") = true →
        pathJoin publicAssetPath b = publicAssetPath ++ b)
    ∧ (∀ l : List JsAsset,
        (∀ g ∈ files, b ∉ refsOf publicAssetPath files g.basename g.content) →
        publicAssetPath ++ b
          ∈ (resolvePage publicAssetPath files l).map (fun a => a.urlPath) →
        publicAssetPath ++ b ∈ l.map (fun a => a.urlPath)) := by
  refine ⟨mem_refsOf, ?_, ?_⟩
  · intro hs
    unfold pathJoin
    by_cases he : publicAssetPath = ""
    · subst he
      exact absurd hs (by decide)
    · rw [if_neg he, if_pos hs]
  · intro l hnoref hmem
    cases hfind : l.find? (fun f => f.kind == "entrypoint") with
    | none =>
      rwa [resolvePage_eq_of_none _ _ _ hfind] at hmem
    | some ep =>
      rw [resolvePage_eq_of_some _ _ _ _ hfind] at hmem
      rcases appendDeps_urls_sub _ _ _ _ _ hmem with h' | h'
      · exact h'
      · exfalso
        rcases h' with ⟨d, hd, hu⟩
        have hdb : b = d := str_append_left_cancel publicAssetPath hu
        subst hdb
        rcases collectDeps_sub _ _ _ _ _ hd with h3 | h3
        · cases h3
        · rcases h3 with ⟨k, rs, hkrs, hbrs⟩
          unfold referenceMap at hkrs
          rcases List.mem_map.mp hkrs with ⟨g, hg, hgk⟩
          have hrs : rs = refsOf publicAssetPath files g.basename g.content := by
            have := congrArg Prod.snd hgk
            exact this.symm
          rw [hrs] at hbrs
          exact hnoref g hg hbrs

/-- C3 (witness): with the real public asset path `/dist/client/`
(trailing slash) the joined pattern equals the concatenation, and a file
containing the plain reference is recorded as referencing the chunk. -/
theorem c3_witness :
    strEndsWith ("/dist/client/") ("/") = true
    ∧ pathJoin ("/dist/client/") ("b.js") = "/dist/client/" ++ "b.js"
    ∧ ("b.js" ∈ refsOf ("/dist/client/")
        [⟨"a.js", "/d/a.js", "see /dist/client/b.js here"⟩, ⟨"b.js", "/d/b.js", ""⟩]
        ("a.js") ("see /dist/client/b.js here")) := by
  have h := c3_static_reference_rule ("/dist/client/")
    [⟨"a.js", "/d/a.js", "see /dist/client/b.js here"⟩, ⟨"b.js", "/d/b.js", ""⟩]
    ("a.js") ("see /dist/client/b.js here") ("b.js")
  refine ⟨by decide, h.2.1 (by decide), ?_⟩
  exact h.1.mpr ⟨⟨⟨"b.js", "/d/b.js", ""⟩, by simp, rfl⟩, by decide, by decide, by decide⟩

/-! ## C4 — manifest construction -/

theorem mem_mapSet {α : Type} {m : List (String × α)} {k : String} {v : α}
    {e : String × α} (h : e ∈ mapSet m k v) : e ∈ m ∨ e = (k, v) := by
  unfold mapSet at h
  split_ifs at h with hc
  · rcases List.mem_map.mp h with ⟨x, hx, hxe⟩
    by_cases hxk : (x.1 == k) = true
    · rw [if_pos hxk] at hxe
      exact Or.inr hxe.symm
    · rw [if_neg hxk] at hxe
      exact Or.inl (hxe ▸ hx)
  · rcases List.mem_append.mp h with h' | h'
    · exact Or.inl h'
    · exact Or.inr (List.mem_singleton.mp h')

/-- Every JS list the output-processing loop stores is non-empty: entry
points always store a singleton. -/
theorem processOutputs_js_nonempty (publicAssetPath : String)
    (routes : List RouteConfig) :
    ∀ (outputs : List BuildOutput) (jsMap : List (String × List JsAsset))
      (cssMap : List (String × List CssAsset)) jsMap' cssMap',
    processOutputs publicAssetPath routes outputs jsMap cssMap
      = .ok (jsMap', cssMap') →
    (∀ e ∈ jsMap, e.2 ≠ ([] : List JsAsset)) →
    ∀ e ∈ jsMap', e.2 ≠ [] := by
  intro outputs
  induction outputs with
  | nil =>
    intro jsMap cssMap jsMap' cssMap' h hinv
    unfold processOutputs at h
    rw [Except.ok.injEq, Prod.mk.injEq] at h
    rw [← h.1]
    exact hinv
  | cons o rest ih =>
    intro jsMap cssMap jsMap' cssMap' h hinv
    unfold processOutputs at h
    cases hstep : processEntryStep publicAssetPath routes o jsMap with
    | error e =>
      rw [hstep] at h
      cases h
    | ok jsMap1 =>
      rw [hstep] at h
      apply ih _ _ _ _ h
      unfold processEntryStep at hstep
      by_cases hk : (o.kind == "entry-point") = true
      · rw [if_pos hk] at hstep
        cases hro : routeForOutput routes o with
        | none =>
          rw [hro] at hstep
          cases hstep
        | some page =>
          rw [hro, Except.ok.injEq] at hstep
          subst hstep
          intro e he
          rcases mem_mapSet he with he' | he'
          · exact hinv e he'
          · rw [he']
            simp
      · rw [if_neg hk, Except.ok.injEq] at hstep
        subst hstep
        exact hinv

/-- `lookup` through the resolver's per-page map. -/
theorem lookup_resolveJs {publicAssetPath : String} {files : List JsFile} :
    ∀ {m : List (String × List JsAsset)} {p : String} {l : List JsAsset},
    (resolveJsDependencies publicAssetPath files m).lookup p = some l →
    ∃ v, m.lookup p = some v ∧ l = resolvePage publicAssetPath files v := by
  intro m
  induction m with
  | nil =>
    intro p l h
    cases h
  | cons e rest ih =>
    intro p l h
    cases e with
    | mk k v =>
      unfold resolveJsDependencies at h
      rw [List.map_cons] at h
      by_cases hbe : (p == k) = true
      · have : some (resolvePage publicAssetPath files v) = some l := by
          rw [← h]
          simp [List.lookup, hbe]
        rw [Option.some.injEq] at this
        exact ⟨v, by simp [List.lookup, hbe], this.symm⟩
      · have h' : (resolveJsDependencies publicAssetPath files rest).lookup p
            = some l := by
          rw [← h]
          simp [List.lookup, hbe, resolveJsDependencies]
        rcases ih h' with ⟨v', hv', hl⟩
        exact ⟨v', by simp [List.lookup, hbe, hv'], hl⟩

theorem resolvePage_ne_nil (publicAssetPath : String) (files : List JsFile)
    (l : List JsAsset) (h : l ≠ []) :
    resolvePage publicAssetPath files l ≠ [] := by
  cases hfind : l.find? (fun f => f.kind == "entrypoint") with
  | none =>
    rw [resolvePage_eq_of_none _ _ _ hfind]
    exact h
  | some ep =>
    rw [resolvePage_eq_of_some _ _ _ _ hfind]
    rcases appendDeps_shape publicAssetPath files _ l with ⟨xs, hs, _⟩
    rw [hs]
    intro hnil
    exact h (List.append_eq_nil.mp hnil).1

theorem mkManifestRoutes_ok {jsMap : List (String × List JsAsset)}
    {cssMap : List (String × List CssAsset)} :
    ∀ {routes : List RouteConfig} {ms : List ManifestRoute},
    mkManifestRoutes jsMap cssMap routes = .ok ms →
    ms.map (fun m => m.path) = routes.map (fun r => r.path)
    ∧ ∀ m ∈ ms, ∃ l, jsMap.lookup m.path = some l
        ∧ m.js = l.map (fun a => a.urlPath) := by
  intro routes
  induction routes with
  | nil =>
    intro ms h
    unfold mkManifestRoutes at h
    rw [Except.ok.injEq] at h
    subst h
    exact ⟨rfl, by simp⟩
  | cons r rest ih =>
    intro ms h
    unfold mkManifestRoutes at h
    cases hjs : jsMap.lookup r.path with
    | none =>
      rw [hjs] at h
      cases h
    | some js =>
      rw [hjs] at h
      cases hcss : cssMap.lookup r.path with
      | none =>
        rw [hcss] at h
        cases h
      | some css =>
        rw [hcss] at h
        cases hrec : mkManifestRoutes jsMap cssMap rest with
        | error e =>
          rw [hrec] at h
          cases h
        | ok ms' =>
          rw [hrec] at h
          simp only [Except.map] at h
          rw [Except.ok.injEq] at h
          rcases ih hrec with ⟨ih1, ih2⟩
          subst h
          constructor
          · simp [ih1]
          · intro m hm
            rcases List.mem_cons.mp hm with heq | hm'
            · subst heq
              exact ⟨js, hjs, rfl⟩
            · exact ih2 m hm'

theorem mkManifestRoutes_error {jsMap : List (String × List JsAsset)}
    {cssMap : List (String × List CssAsset)} :
    ∀ {routes : List RouteConfig},
    (∃ r ∈ routes, jsMap.lookup r.path = none ∨ cssMap.lookup r.path = none) →
    ∃ e, mkManifestRoutes jsMap cssMap routes = .error e := by
  intro routes
  induction routes with
  | nil =>
    rintro ⟨r, hr, _⟩
    cases hr
  | cons r rest ih =>
    rintro ⟨r', hr', hmiss⟩
    rcases List.mem_cons.mp hr' with heq | hr2
    · subst heq
      rcases hmiss with hm | hm
      · refine ⟨"Entrypoint path for path " ++ r'.path ++ " not found", ?_⟩
        unfold mkManifestRoutes
        rw [hm]
      · cases hjs : jsMap.lookup r'.path with
        | none =>
          refine ⟨"Entrypoint path for path " ++ r'.path ++ " not found", ?_⟩
          unfold mkManifestRoutes
          rw [hjs]
        | some js =>
          refine ⟨"CSS paths for path " ++ r'.path ++ " not found", ?_⟩
          unfold mkManifestRoutes
          rw [hjs, hm]
    · rcases ih ⟨r', hr2, hmiss⟩ with ⟨e, herr⟩
      cases hjs : jsMap.lookup r.path with
      | none =>
        refine ⟨"Entrypoint path for path " ++ r.path ++ " not found", ?_⟩
        unfold mkManifestRoutes
        rw [hjs]
      | some js =>
        cases hcss : cssMap.lookup r.path with
        | none =>
          refine ⟨"CSS paths for path " ++ r.path ++ " not found", ?_⟩
          unfold mkManifestRoutes
          rw [hjs, hcss]
        | some css =>
          refine ⟨e, ?_⟩
          unfold mkManifestRoutes
          rw [hjs, hcss, herr]
          rfl

/-- C4: for every non-empty route set for which the post-build pipeline
succeeds, the manifest has exactly one entry per input route (same paths,
same order) and every entry's JS asset list is non-empty; and the
serialization step throws whenever some input route is missing from the
internal JS or CSS map. -/
theorem c4_manifest_serialization (publicAssetPath : String)
    (routes : List RouteConfig) (outputs : List BuildOutput)
    (files : List JsFile) (hne : routes ≠ []) :
    (∀ mrs, bundleManifest publicAssetPath routes outputs files = .ok mrs →
        mrs.map (fun m => m.path) = routes.map (fun r => r.path)
        ∧ ∀ m ∈ mrs, m.js ≠ [])
    ∧ (∀ (jsMap : List (String × List JsAsset))
         (cssMap : List (String × List CssAsset)),
        (∃ r ∈ routes, jsMap.lookup r.path = none
          ∨ cssMap.lookup r.path = none) →
        ∃ e, mkManifestRoutes jsMap cssMap routes = .error e) := by
  constructor
  · intro mrs h
    unfold bundleManifest at h
    cases hpo : processOutputs publicAssetPath routes outputs [] [] with
    | error e =>
      rw [hpo] at h
      cases h
    | ok pair =>
      rw [hpo] at h
      obtain ⟨jsMap, cssMap⟩ := pair
      have hok := mkManifestRoutes_ok h
      refine ⟨hok.1, ?_⟩
      intro m hm
      rcases hok.2 m hm with ⟨l, hlook, hjs⟩
      rcases lookup_resolveJs hlook with ⟨v, hv, hl⟩
      have hvmem := lookup_mem hv
      have hvne : v ≠ [] :=
        processOutputs_js_nonempty publicAssetPath routes outputs [] []
          jsMap cssMap hpo (by simp) (m.path, v) hvmem
      have hlne : l ≠ [] := by
        rw [hl]
        exact resolvePage_ne_nil _ _ _ hvne
      rw [hjs]
      simpa using hlne
  · intro jsMap cssMap hex
    exact mkManifestRoutes_error hex

/-- C4 (witness): one route, one matching entry-point output and one CSS
output produce a one-entry manifest with a non-empty JS list; the
serialization step fails on empty internal maps. -/
theorem c4_witness :
    (([⟨"/ssr", "src/ssr.hydrate.tsx"⟩] : List RouteConfig) ≠ [])
    ∧ ([⟨"/ssr", ["/dist/client/ssr.hydrate-abc.js"],
          ["/dist/client/ccc.css"]⟩] : List ManifestRoute).map (fun m => m.path)
        = ([⟨"/ssr", "src/ssr.hydrate.tsx"⟩] : List RouteConfig).map
            (fun r => r.path)
    ∧ (⟨"/ssr", ["/dist/client/ssr.hydrate-abc.js"],
        ["/dist/client/ccc.css"]⟩ : ManifestRoute).js ≠ []
    ∧ (∃ e, mkManifestRoutes ([] : List (String × List JsAsset))
        ([] : List (String × List CssAsset))
        [⟨"/ssr", "src/ssr.hydrate.tsx"⟩] = .error e) := by
  have h := c4_manifest_serialization ("/dist/client/")
    [⟨"/ssr", "src/ssr.hydrate.tsx"⟩]
    [⟨"/out/ssr.hydrate-abc.js", "entry-point", "abc"⟩,
     ⟨"/out/ssr.hydrate-abc.css", "chunk", "ccc"⟩] [] (by simp)
  have h2 := h.1 [⟨"/ssr", ["/dist/client/ssr.hydrate-abc.js"],
      ["/dist/client/ccc.css"]⟩] rfl
  refine ⟨by simp, h2.1, h2.2 _ (by simp), ?_⟩
  exact h.2 [] [] ⟨⟨"/ssr", "src/ssr.hydrate.tsx"⟩, by simp, Or.inl rfl⟩

/-! ## C8 — manifest loading and validation -/

/-- C8 (counterexample): with an empty route list,
`generateSsrBundleHandlers` returns an empty handler set at once
(lines 405-410) without reading the manifest, so a missing manifest file
does not make it throw. -/
theorem c8_counterexample :
    generateSsrBundleHandlers ([] : List String) (none : Option Json)
      (fun _ => (Except.ok 0 : Except String Nat)) = .ok none := rfl

/-- A manifest JSON whose `version` field is not the literal `1` fails
schema validation. -/
theorem parseManifest_bad_version {j : Json}
    (h : j.getField ("version") ≠ some (Json.num 1)) :
    parseManifest j = .error ("Invalid manifest version") := by
  unfold parseManifest
  cases hv : j.getField ("version") with
  | none => rfl
  | some v =>
    cases v with
    | num n =>
      by_cases hn : n = SSR_MANIFEST_VERSION
      · exact absurd (by rw [hv, hn]; rfl) h
      · simp only [hn, if_neg]
        rfl
    | null => rfl
    | bool b => rfl
    | str s => rfl
    | arr xs => rfl
    | obj fields => rfl

/-- C8 (amended): for every non-empty route list and every per-route
handler builder, `generateSsrBundleHandlers` throws when the manifest
file does not exist; throws — for every possible handler builder, hence
before any route handler is constructed — when the manifest's `version`
field is not the expected constant 1; and likewise throws, before any
route handler is constructed, whenever the manifest JSON does not
validate against the schema at all (its shape admits no parse); with an
empty route list it instead returns an empty handler set without
touching the manifest. -/
theorem c8_manifest_validation {α : Type} (routePaths : List String)
    (manifestFile : Option Json)
    (buildRoute : ManifestRoute → Except String α)
    (hne : routePaths ≠ []) :
    (manifestFile = none →
      generateSsrBundleHandlers routePaths manifestFile buildRoute
        = .error ("SSR manifest file not found. Did you run the bundle step?"))
    ∧ (∀ j, manifestFile = some j →
        j.getField ("version") ≠ some (Json.num 1) →
        ∀ br2 : ManifestRoute → Except String α,
          generateSsrBundleHandlers routePaths (some j) br2
            = .error ("Invalid manifest version"))
    ∧ (∀ j, manifestFile = some j →
        (∀ m : Manifest, parseManifest j ≠ .ok m) →
        ∃ e, ∀ br2 : ManifestRoute → Except String α,
          generateSsrBundleHandlers routePaths (some j) br2 = .error e) := by
  have hemp : routePaths.isEmpty = false := by
    cases routePaths with
    | nil => exact absurd rfl hne
    | cons a l => rfl
  have hgen : ∀ (j : Json) (br2 : ManifestRoute → Except String α),
      generateSsrBundleHandlers routePaths (some j) br2
        = (parseManifest j).bind (fun manifest =>
            (manifest.routes.mapM (fun route =>
              if routePaths.contains route.path then
                (br2 route).map (fun h => (route.path, h))
              else .error ("SSR export in module for path "
                ++ route.path ++ " was not found"))).bind
            (fun handlers => .ok (some handlers))) := by
    intro j br2
    unfold generateSsrBundleHandlers
    rw [if_neg (by rw [hemp]; simp)]
    rfl
  refine ⟨?_, ?_, ?_⟩
  · intro hnone
    subst hnone
    unfold generateSsrBundleHandlers
    rw [if_neg (by rw [hemp]; simp)]
  · intro j _ hver br2
    rw [hgen j br2, parseManifest_bad_version hver]
    rfl
  · intro j _ hnoparse
    cases hp : parseManifest j with
    | ok m => exact absurd hp (hnoparse m)
    | error e =>
      refine ⟨e, ?_⟩
      intro br2
      rw [hgen j br2, hp]
      rfl

/-- C8 (witness): with a non-empty route list, a missing manifest file,
a version-2 manifest, and a version-1 manifest whose `routes` field is a
string instead of an array (a shape failure) all make the loader throw. -/
theorem c8_witness :
    ((["/ssr"] : List String) ≠ [])
    ∧ generateSsrBundleHandlers (["/ssr"]) (none : Option Json)
        (fun _ => (Except.ok 0 : Except String Nat))
      = .error ("SSR manifest file not found. Did you run the bundle step?")
    ∧ generateSsrBundleHandlers (["/ssr"])
        (some (Json.obj [("version", Json.num 2)]))
        (fun _ => (Except.ok 0 : Except String Nat))
      = .error ("Invalid manifest version")
    ∧ (∃ e, generateSsrBundleHandlers (["/ssr"])
        (some (Json.obj [("version", Json.num 1),
          ("publicAssetPath", Json.str ("/dist/client/")),
          ("routes", Json.str ("nope"))]))
        (fun _ => (Except.ok 0 : Except String Nat))
      = .error e) := by
  have hneq : (Json.obj [("version", Json.num 2)]).getField ("version")
      ≠ some (Json.num 1) := by
    intro hv
    have h3 : some (Json.num 2) = some (Json.num 1) := hv
    injection h3 with h4
    injection h4 with h5
    exact absurd h5 (by decide)
  have hnoparse : ∀ m : Manifest,
      parseManifest (Json.obj [("version", Json.num 1),
        ("publicAssetPath", Json.str ("/dist/client/")),
        ("routes", Json.str ("nope"))]) ≠ .ok m := by
    intro m hm
    have h4 : (Except.error ("Missing routes") : Except String Manifest)
        = .ok m := hm
    cases h4
  have h := c8_manifest_validation (["/ssr"]) (none : Option Json)
    (fun _ => (Except.ok 0 : Except String Nat)) (by simp)
  have h2 := c8_manifest_validation (["/ssr"])
    (some (Json.obj [("version", Json.num 2)]))
    (fun _ => (Except.ok 0 : Except String Nat)) (by simp)
  have h3 := c8_manifest_validation (["/ssr"])
    (some (Json.obj [("version", Json.num 1),
      ("publicAssetPath", Json.str ("/dist/client/")),
      ("routes", Json.str ("nope"))]))
    (fun _ => (Except.ok 0 : Except String Nat)) (by simp)
  obtain ⟨e, he⟩ := h3.2.2 (Json.obj [("version", Json.num 1),
    ("publicAssetPath", Json.str ("/dist/client/")),
    ("routes", Json.str ("nope"))]) rfl hnoparse
  exact ⟨by simp, h.1 rfl,
    h2.2.1 (Json.obj [("version", Json.num 2)]) rfl hneq
      (fun _ => (Except.ok 0 : Except String Nat)),
    ⟨e, he (fun _ => (Except.ok 0 : Except String Nat))⟩⟩

/-! ## C9 — per-file error isolation of the export fixer -/

theorem count_filter_map {α β : Type} (g : α → β) (p : β → Bool) (q : α → Bool)
    (h : ∀ a, p (g a) = q a) (l : List α) :
    ((l.map g).filter p).length = (l.filter q).length := by
  induction l with
  | nil => rfl
  | cons a rest ih =>
    rw [List.map_cons, List.filter_cons, List.filter_cons, h a]
    cases q a <;> simp [ih]

/-- C9: the directory fixer processes every file regardless of per-file
errors: the result list has one entry per input file, an erroring file's
entry captures the error with `wasFixed = false`, a succeeding file's
entry carries its fix flag, and the reported fixed/error counts match the
per-file outcomes.  This holds for every per-file fix behaviour, so no
single file's error ever aborts the batch. -/
theorem c9_error_isolation (fix : String → Except String Bool)
    (jsFiles : List String) :
    (fixDuplicateExportsInDirectory fix jsFiles).length = jsFiles.length
    ∧ (∀ fp e, fp ∈ jsFiles → fix fp = .error e →
        (⟨fp, false, some e⟩ : FixResult)
          ∈ fixDuplicateExportsInDirectory fix jsFiles)
    ∧ (∀ fp b, fp ∈ jsFiles → fix fp = .ok b →
        (⟨fp, b, none⟩ : FixResult)
          ∈ fixDuplicateExportsInDirectory fix jsFiles)
    ∧ errorCount (fixDuplicateExportsInDirectory fix jsFiles)
        = (jsFiles.filter (fun f => match fix f with
            | .error _ => true
            | .ok _ => false)).length
    ∧ fixedCount (fixDuplicateExportsInDirectory fix jsFiles)
        = (jsFiles.filter (fun f => match fix f with
            | .ok b => b
            | .error _ => false)).length := by
  refine ⟨by simp [fixDuplicateExportsInDirectory], ?_, ?_, ?_, ?_⟩
  · intro fp e hfp hferr
    have hm := List.mem_map_of_mem
      (fun filePath => match fix filePath with
        | .ok wasFixed =>
          ({ filePath := filePath, wasFixed := wasFixed, error := none } : FixResult)
        | .error e =>
          ({ filePath := filePath, wasFixed := false, error := some e } : FixResult))
      hfp
    simpa [fixDuplicateExportsInDirectory, hferr] using hm
  · intro fp b hfp hfok
    have hm := List.mem_map_of_mem
      (fun filePath => match fix filePath with
        | .ok wasFixed =>
          ({ filePath := filePath, wasFixed := wasFixed, error := none } : FixResult)
        | .error e =>
          ({ filePath := filePath, wasFixed := false, error := some e } : FixResult))
      hfp
    simpa [fixDuplicateExportsInDirectory, hfok] using hm
  · apply count_filter_map
    intro a
    cases hfa : fix a <;> simp
  · apply count_filter_map
    intro a
    cases hfa : fix a <;> simp

/-- C9 (witness): a two-file batch where one file's fix throws still
reports both files, captures the error, and counts one fix and one
error. -/
theorem c9_witness :
    ("bad.js" ∈ (["a.js", "bad.js"] : List String))
    ∧ (fixDuplicateExportsInDirectory
        (fun f => if f = "bad.js" then .error ("boom") else .ok true)
        (["a.js", "bad.js"])).length = 2
    ∧ (⟨"bad.js", false, some ("boom")⟩ : FixResult)
        ∈ fixDuplicateExportsInDirectory
          (fun f => if f = "bad.js" then .error ("boom") else .ok true)
          (["a.js", "bad.js"])
    ∧ errorCount (fixDuplicateExportsInDirectory
        (fun f => if f = "bad.js" then .error ("boom") else .ok true)
        (["a.js", "bad.js"])) = 1
    ∧ fixedCount (fixDuplicateExportsInDirectory
        (fun f => if f = "bad.js" then .error ("boom") else .ok true)
        (["a.js", "bad.js"])) = 1 := by
  have h := c9_error_isolation
    (fun f => if f = "bad.js" then .error ("boom") else .ok true)
    (["a.js", "bad.js"])
  refine ⟨by simp, by simpa using h.1, ?_, h.2.2.2.1.trans (by decide),
    h.2.2.2.2.trans (by decide)⟩
  exact h.2.1 ("bad.js") ("boom") (by simp) (by simp)

/-! ## C2 — duplicate-export scenario across two files -/

/-- All export names of a statement list, in statement order. -/
def stmtNames (stmts : List ExportStatement) : List String :=
  (stmts.map (fun s => s.names)).flatten

theorem insertStmt_perm (s : ExportStatement) :
    ∀ l : List ExportStatement, List.Perm (insertStmt s l) (s :: l) := by
  intro l
  induction l with
  | nil => exact List.Perm.refl _
  | cons t ts ih =>
    unfold insertStmt
    by_cases h : t.start < s.start
    · rw [if_pos h]
      exact (List.Perm.cons t ih).trans (List.Perm.swap s t ts)
    · rw [if_neg h]

theorem sortStmts_perm :
    ∀ l : List ExportStatement, List.Perm (sortStmts l) l := by
  intro l
  induction l with
  | nil => exact List.Perm.refl _
  | cons s ss ih =>
    exact (insertStmt_perm s (sortStmts ss)).trans (List.Perm.cons s ih)

theorem stmtNames_sort_nodup {l : List ExportStatement}
    (h : (stmtNames l).Nodup) : (stmtNames (sortStmts l)).Nodup := by
  have hp : List.Perm (stmtNames (sortStmts l)) (stmtNames l) := by
    unfold stmtNames
    exact ((sortStmts_perm l).map (fun s => s.names)).flatten
  exact hp.nodup_iff.mpr h

/-- When every export name in the (sorted) statements is fresh, the
duplicate-detection walk plans nothing. -/
theorem dedupScan_clean (code : List Char) :
    ∀ (stmts : List ExportStatement) (seen : List String)
      (rem : List (Nat × Nat)) (nrm : List (ExportStatement × List String)),
    (∀ n ∈ stmtNames stmts, n ∉ seen) →
    (stmtNames stmts).Nodup →
    dedupScan code stmts seen rem nrm = (rem, nrm) := by
  intro stmts
  induction stmts with
  | nil =>
    intro seen rem nrm _ _
    rfl
  | cons stmt rest ih =>
    intro seen rem nrm hdisj hnd
    have hnames : ∀ n ∈ stmt.names, n ∈ stmtNames (stmt :: rest) := by
      intro n hn
      unfold stmtNames
      rw [List.map_cons, List.flatten_cons]
      exact List.mem_append_left _ hn
    have hrest : ∀ n ∈ stmtNames rest, n ∈ stmtNames (stmt :: rest) := by
      intro n hn
      unfold stmtNames at hn ⊢
      rw [List.map_cons, List.flatten_cons]
      exact List.mem_append_right _ hn
    have hdups : stmt.names.filter (fun n => seen.contains n) = [] := by
      apply List.filter_eq_nil_iff.mpr
      intro n hn
      have hns : n ∉ seen := hdisj n (hnames n hn)
      simpa using hns
    have hsplit : (stmtNames (stmt :: rest)).Nodup := hnd
    have hnd2 : (stmt.names ++ stmtNames rest).Nodup := by
      unfold stmtNames at hsplit
      rw [List.map_cons, List.flatten_cons] at hsplit
      exact hsplit
    unfold dedupScan
    rw [hdups]
    rw [if_neg (by decide)]
    apply ih
    · intro n hn hmem
      rcases List.mem_append.mp hmem with hn2 | hn2
      · exact hdisj n (hrest n hn) hn2
      · exact (List.disjoint_of_nodup_append hnd2) hn2 hn
    · exact List.Nodup.sublist (List.sublist_append_right _ _) hnd2

/-- A file whose export statements carry pairwise-distinct names is
reported "not fixed" and left untouched. -/
theorem fixFile_none_of_nodup (lexExports : List (String × Nat))
    (code : List Char)
    (h : (stmtNames (buildStatements code lexExports [])).Nodup) :
    fixDuplicateExportsInFile lexExports code = none := by
  unfold fixDuplicateExportsInFile
  rw [dedupScan_clean code (sortStmts (buildStatements code lexExports [])) [] [] []
    (by simp) (stmtNames_sort_nodup h)]
  rfl

/-- C2 (counterexample): two files that each contain only
`export { foo };` are both left byte-for-byte unchanged by the directory
fixer (duplicate detection is per-file: each file alone has no duplicate),
and zero files are reported fixed — not "exactly one file retains the
statement and the other has it removed".  The lexer argument is
`es-module-lexer`'s output for this text: one named export `foo` at
offset 9. -/
theorem c2_counterexample :
    (runFixer (fun _ => [("foo", 9)])
        [("a.js", ("export \x7b foo \x7d;").toList),
         ("b.js", ("export \x7b foo \x7d;").toList)]).1
      = [("a.js", ("export \x7b foo \x7d;").toList),
         ("b.js", ("export \x7b foo \x7d;").toList)]
    ∧ (runFixer (fun _ => [("foo", 9)])
        [("a.js", ("export \x7b foo \x7d;").toList),
         ("b.js", ("export \x7b foo \x7d;").toList)]).2 = 0 := by
  exact ⟨rfl, rfl⟩

/-- C2 (amended): when every scanned file's export statements carry
pairwise-distinct names — in particular for two distinct files each
containing `export { foo };` once — the fixer leaves every file unchanged
and reports zero files fixed, and a second run is likewise a no-op
reporting zero fixes.  Duplicates are only detected within a single file,
never across files. -/
theorem c2_per_file_dedup (lexer : List Char → List (String × Nat))
    (files : List (String × List Char))
    (h : ∀ f ∈ files, (stmtNames (buildStatements f.2 (lexer f.2) [])).Nodup) :
    (runFixer lexer files).1 = files
    ∧ (runFixer lexer files).2 = 0
    ∧ runFixer lexer (runFixer lexer files).1 = runFixer lexer files := by
  have hfix : ∀ f ∈ files, fixOutcome lexer f = (f.1, f.2, false) := by
    intro f hf
    unfold fixOutcome
    rw [fixFile_none_of_nodup _ _ (h f hf)]
  have h1 : (runFixer lexer files).1 = files := by
    unfold runFixer
    rw [List.map_map]
    have hcongr : ∀ f ∈ files,
        ((fun o : String × List Char × Bool => (o.1, o.2.1)) ∘ fixOutcome lexer) f
          = f := by
      intro f hf
      simp only [Function.comp]
      rw [hfix f hf]
    rw [List.map_congr_left hcongr]
    simp
  have h2 : (runFixer lexer files).2 = 0 := by
    unfold runFixer
    have hnil : (files.map (fixOutcome lexer)).filter (fun o => o.2.2) = [] := by
      apply List.filter_eq_nil_iff.mpr
      intro o ho
      rcases List.mem_map.mp ho with ⟨f, hf, hfo⟩
      rw [hfix f hf] at hfo
      rw [← hfo]
      simp
    rw [hnil]
    rfl
  exact ⟨h1, h2, by rw [h1]⟩

/-- C2 (witness): the concrete two-file `export { foo };` scenario — the
hypothesis holds, the run fixes zero files, and a second run equals the
first. -/
theorem c2_witness :
    (stmtNames (buildStatements (("export \x7b foo \x7d;").toList)
        [("foo", 9)] [])).Nodup
    ∧ (runFixer (fun _ => [("foo", 9)])
        [("a.js", ("export \x7b foo \x7d;").toList),
         ("b.js", ("export \x7b foo \x7d;").toList)]).2 = 0
    ∧ runFixer (fun _ => [("foo", 9)])
        (runFixer (fun _ => [("foo", 9)])
          [("a.js", ("export \x7b foo \x7d;").toList),
           ("b.js", ("export \x7b foo \x7d;").toList)]).1
      = runFixer (fun _ => [("foo", 9)])
          [("a.js", ("export \x7b foo \x7d;").toList),
           ("b.js", ("export \x7b foo \x7d;").toList)] := by
  have h := c2_per_file_dedup (fun _ => [("foo", 9)])
    [("a.js", ("export \x7b foo \x7d;").toList),
     ("b.js", ("export \x7b foo \x7d;").toList)] (by decide)
  exact ⟨by decide, h.2.1, h.2.2⟩

end Spec2Proof
